import Mathlib

/-!
A shallow embedding of `photofinder.go`, the whole of photofinder.

Go strings are modelled as lists of characters (`Str`), the `Flist` map as an
association list with an explicit lookup and store, and the unspecified
iteration order of a Go `range` over a map as an explicit list of keys.
Machine integers are natural numbers or integers reduced modulo `2^64`.
-/

namespace Photofinder

/-- Go `string`, seen as its sequence of characters. -/
abbrev Str := List Char

/-- The value type of `Flist`: `struct { orig, dedup string }`. -/
structure Entry where
  orig : Str
  dedup : Str
deriving DecidableEq, Repr, Inhabited

/-- The map `Flist` of the source, `map[string]struct{orig, dedup string}`, as
an association list from hash to entry. -/
abbrev Flist := List (Str × Entry)

/-- The keys of the map. -/
def Flist.keys (s : Flist) : List Str := s.map Prod.fst

/-- Map read `v, ok := (*s)[c]`: `none` stands for `ok = false`. -/
def Flist.lookup : Flist → Str → Option Entry
  | [], _ => none
  | (k, v) :: t, c => if k = c then some v else Flist.lookup t c

/-- Map write `(*s)[c] = v`: replaces the value of an existing key, and
creates the key otherwise. -/
def Flist.store : Flist → Str → Entry → Flist
  | [], c, v => [(c, v)]
  | (k, w) :: t, c, v => if k = c then (k, v) :: t else (k, w) :: Flist.store t c v

/-- The function `newFlist`: the empty map. -/
def newFlist : Flist := []

/-- The method `Flist.add`: the zero value read for an absent key gets its
`orig` field set and is stored; a present key is left alone. -/
def Flist.add (s : Flist) (c f : Str) : Flist :=
  match Flist.lookup s c with
  | some _ => s
  | none => Flist.store s c { orig := f, dedup := [] }

/-- A sequence of `add(hash, path)` calls applied in order. -/
def addAll (s : Flist) (calls : List (Str × Str)) : Flist :=
  calls.foldl (fun acc call => Flist.add acc call.1 call.2) s

/-! ## Path helpers of `path/filepath` (Unix) and `fmt` -/

/-- Go `os.IsPathSeparator` on Unix. -/
def isPathSeparator (c : Char) : Bool := c = '/'

/-- Go `filepath.Base`: the last element of the path, trailing slashes
removed first; `"."` for the empty path and `"/"` for a path of slashes. -/
def Base (path : Str) : Str :=
  if path = [] then ['.']
  else
    let stripped := (path.reverse.dropWhile isPathSeparator).reverse
    let last := (stripped.reverse.takeWhile (fun c => !isPathSeparator c)).reverse
    if last = [] then ['/'] else last

/-- The loop of Go `filepath.Ext`, run over the reversed path: `acc` holds the
characters already passed, so that `'.' :: acc` is `path[i:]`. -/
def extLoop : Str → Str → Str
  | [], _ => []
  | c :: rest, acc =>
    if isPathSeparator c then []
    else if c = '.' then '.' :: acc
    else extLoop rest (c :: acc)

/-- Go `filepath.Ext`: the suffix beginning at the final dot in the final
element of the path; empty if there is no dot. -/
def Ext (path : Str) : Str := extLoop path.reverse []

/-- The verb `%d` of `fmt.Sprintf` applied to an unsigned integer: its decimal
digits, most significant first, and `"0"` for zero. -/
def fmtUint (n : Nat) : Str := Nat.toDigits 10 n

/-- The call `fmt.Sprintf("%s/%s-%d%s", dest, base, cnt, ext)` of `dedup`. -/
def sprintfDest (dest base : Str) (cnt : Nat) (ext : Str) : Str :=
  dest ++ '/' :: (base ++ '-' :: (fmtUint cnt ++ ext))

/-! ## `filepath.Match` (Unix)

The pattern is split into chunks at the stars outside brackets (`scanChunk`),
each chunk is read into items, and the items are matched against the name as
`matchChunk` does. A malformed pattern gives `ErrBadPattern`. -/

/-- One element of a chunk: a literal character, `?`, or a character class
`[...]` with its ranges. -/
inductive Item where
  | lit (c : Char)
  | anyChar
  | cls (negated : Bool) (ranges : List (Char × Char))
deriving DecidableEq, Repr

/-- A chunk of a pattern: whether stars precede it, and its items. -/
structure Chunk where
  star : Bool
  items : List Item
deriving DecidableEq, Repr

/-- Go `getEsc`: one possibly escaped character of a class and the rest of
the chunk; `none` is `ErrBadPattern`. -/
def getEsc : Str → Option (Char × Str)
  | [] => none
  | c :: t =>
    if c = '-' ∨ c = ']' then none
    else if c = '\\' then
      match t with
      | [] => none
      | r :: n => if n = [] then none else some (r, n)
    else if t = [] then none else some (c, t)

/-- The loop of `matchChunk` that reads the ranges of a class up to the
closing bracket; `nrange` counts the ranges read. -/
def parseRanges : Nat → Str → Nat → Option (List (Char × Char) × Str)
  | 0, _, _ => none
  | fuel + 1, chunk, nrange =>
    if chunk.head? = some ']' ∧ nrange > 0 then some ([], chunk.tail)
    else
      match getEsc chunk with
      | none => none
      | some (lo, c1) =>
        if c1.head? = some '-' then
          match getEsc c1.tail with
          | none => none
          | some (hi, c2) =>
            (parseRanges fuel c2 (nrange + 1)).map (fun p => ((lo, hi) :: p.1, p.2))
        else
          (parseRanges fuel c1 (nrange + 1)).map (fun p => ((lo, lo) :: p.1, p.2))

/-- The items of a chunk, read as the `switch` of `matchChunk` reads them. -/
def parseChunk : Nat → Str → Option (List Item)
  | _, [] => some []
  | 0, _ :: _ => none
  | fuel + 1, c :: t =>
    if c = '[' then
      let negated := decide (t.head? = some '^')
      let t1 := if negated then t.tail else t
      match parseRanges fuel t1 0 with
      | none => none
      | some (rs, t2) => (parseChunk fuel t2).map (fun is => Item.cls negated rs :: is)
    else if c = '?' then (parseChunk fuel t).map (fun is => Item.anyChar :: is)
    else if c = '\\' then
      match t with
      | [] => none
      | d :: t1 => (parseChunk fuel t1).map (fun is => Item.lit d :: is)
    else (parseChunk fuel t).map (fun is => Item.lit c :: is)

/-- The scan loop of Go `scanChunk`: the chunk up to the next star outside
brackets, and the rest of the pattern. -/
def scanSplit : Bool → Str → Str × Str
  | _, [] => ([], [])
  | inrange, c :: t =>
    if c = '\\' then
      match t with
      | [] => ([c], [])
      | d :: t1 => let r := scanSplit inrange t1; (c :: d :: r.1, r.2)
    else if c = '[' then let r := scanSplit true t; (c :: r.1, r.2)
    else if c = ']' then let r := scanSplit false t; (c :: r.1, r.2)
    else if c = '*' ∧ inrange = false then ([], c :: t)
    else let r := scanSplit inrange t; (c :: r.1, r.2)

/-- Go `scanChunk`: leading stars, the chunk after them, the rest. -/
def scanChunk (pattern : Str) : Bool × Str × Str :=
  let p := pattern.dropWhile (fun c => c = '*')
  (decide (pattern.head? = some '*'), scanSplit false p)

/-- The pattern as its list of chunks; `none` is `ErrBadPattern`. -/
def parsePattern : Nat → Str → Option (List Chunk)
  | _, [] => some []
  | 0, _ :: _ => none
  | fuel + 1, c :: t =>
    let sc := scanChunk (c :: t)
    match parseChunk (sc.2.1.length + 1) sc.2.1 with
    | none => none
    | some items => (parsePattern fuel sc.2.2).map (fun cs => { star := sc.1, items := items } :: cs)

/-- Whether the character lies in one of the ranges of a class. -/
def inRanges (r : Char) (ranges : List (Char × Char)) : Bool :=
  ranges.any (fun p => decide (p.1 ≤ r) && decide (r ≤ p.2))

/-- Whether one item of a chunk accepts the character `x` of the name: the
cases of the `switch` of `matchChunk`. -/
def itemAccepts : Item → Char → Bool
  | Item.lit c, x => decide (c = x)
  | Item.anyChar, x => !isPathSeparator x
  | Item.cls negated ranges, x => inRanges x ranges != negated

/-- Go `matchChunk` on a parsed chunk: the rest of the name after the chunk
matched at its start, or `none`. -/
def matchItems : List Item → Str → Option Str
  | [], s => some s
  | _ :: _, [] => none
  | it :: is, x :: s => if itemAccepts it x then matchItems is s else none

/-- The loop of `Match` that looks for a match of a starred chunk after
skipping one more character of the name at a time, never a separator. -/
def matchStar (items : List Item) (last : Bool) : Str → Option Str
  | [] => none
  | c :: rest =>
    if isPathSeparator c then none
    else
      match matchItems items rest with
      | some t => if last && decide (t ≠ []) then matchStar items last rest else some t
      | none => matchStar items last rest

/-- The outer loop of Go `filepath.Match` over the chunks of the pattern. -/
def matchChunks : List Chunk → Str → Bool
  | [], name => decide (name = [])
  | ch :: rest, name =>
    if ch.star && decide (ch.items = []) then !(name.any isPathSeparator)
    else
      let viaStar : Bool :=
        if ch.star then
          match matchStar ch.items (decide (rest = [])) name with
          | some t => matchChunks rest t
          | none => false
        else false
      match matchItems ch.items name with
      | some t => if decide (t = []) || decide (rest ≠ []) then matchChunks rest t else viaStar
      | none => viaStar

/-- Go `filepath.Match`: the pair `(matched, err)`, with `err = true` for
`ErrBadPattern`. -/
def Match (pattern name : Str) : Bool × Bool :=
  match parsePattern (pattern.length + 1) pattern with
  | none => (false, true)
  | some chunks => (matchChunks chunks name, false)

/-- The patterns of `match`. -/
def regex : List Str :=
  ["*.[jJ][pP][gG]".toList, "*.[mM][pP][eE][gG]".toList, "*.[mM][pP]4".toList,
   "*.[Gg][Ii][Ff]".toList]

/-- The function `match` of the source: whether the base name of the path
matches one of the patterns. -/
def match_ (f : Str) : Bool :=
  regex.any (fun r => (Match r (Base f)).1)

/-! ## Case-insensitive endings, to state what `match` accepts -/

/-- Whether `x` is the character `c`, or `c` in upper case. -/
def sameLetter (c x : Char) : Bool := decide (x = c) || decide (x = c.toUpper)

/-- Whether `name` is `ext` with its letters in any mix of cases. -/
def foldEq : Str → Str → Bool
  | [], [] => true
  | c :: cs, x :: xs => sameLetter c x && foldEq cs xs
  | _, _ => false

/-- Whether `name` ends in `ext`, compared case-insensitively. -/
def endsWithFold (ext name : Str) : Bool :=
  foldEq ext (name.drop (name.length - ext.length))

/-- The endings the patterns of `match` stand for. -/
def codeExts : List Str := [".jpg".toList, ".mpeg".toList, ".mp4".toList, ".gif".toList]

/-- The five endings the specification lists. -/
def specExts : List Str :=
  [".jpg".toList, ".jpeg".toList, ".mpeg".toList, ".mp4".toList, ".gif".toList]

/-- Whether `name` ends, case-insensitively, in one of `exts`. -/
def hasEnding (exts : List Str) (name : Str) : Bool :=
  exts.any (fun e => endsWithFold e name)

/-! ## `Flist.dedup` -/

/-- The local state of `dedup`: the map being updated, the counter `cnt`
(a `uint64`) and the set `nm` of base names seen so far. -/
structure DedupState where
  s : Flist
  cnt : Nat
  nm : List Str
deriving DecidableEq, Repr

/-- One iteration of the `range` loop of `dedup`, at key `k`. The value `v` is
the one the map holds when the key is produced. A key absent from the map is
not produced by `range`; the step leaves the state alone there. -/
def dedupStep (dest : Str) (st : DedupState) (k : Str) : DedupState :=
  match Flist.lookup st.s k with
  | none => st
  | some v =>
    let base := Base v.orig
    if base ∈ st.nm then
      let ext := Ext base
      { s := Flist.store st.s k { v with dedup := sprintfDest dest base st.cnt ext }
        cnt := (st.cnt + 1) % 2 ^ 64
        nm := List.insert base st.nm }
    else
      { st with nm := List.insert base st.nm }

/-- The loop of `dedup` run over the keys in the order `order` in which the
`range` statement produces them. -/
def dedupLoop (dest : Str) (st : DedupState) (order : List Str) : DedupState :=
  order.foldl (dedupStep dest) st

/-- The method `Flist.dedup`; `order` is the iteration order of the map. -/
def Flist.dedup (s : Flist) (order : List Str) (dest : Str) : Flist :=
  (dedupLoop dest { s := s, cnt := 0, nm := [] } order).s

/-- The keys that `dedup` renames, in iteration order: those whose base name
was already seen; `seen` is the set of base names seen before `order`. -/
def renamedKeys (s : Flist) : List Str → List Str → List Str
  | _, [] => []
  | seen, k :: rest =>
    match Flist.lookup s k with
    | none => renamedKeys s seen rest
    | some v =>
      if Base v.orig ∈ seen then k :: renamedKeys s (List.insert (Base v.orig) seen) rest
      else renamedKeys s (List.insert (Base v.orig) seen) rest

/-- An order in which `range` can produce the keys of the map `s`: every key
exactly once. -/
def IsIterationOrder (s : Flist) (order : List Str) : Prop :=
  order.Perm (Flist.keys s)

/-- A well-formed map holds every key once. -/
def Flist.WF (s : Flist) : Prop := (Flist.keys s).Nodup

/-! ## `isFile` -/

/-- The part of `os.FileInfo` the program reads: the mode bits `f.Mode()`. -/
structure FileInfo where
  mode : Nat
deriving DecidableEq, Repr

/-- Go `os.ModeDir`, bit 31. -/
def ModeDir : Nat := 2 ^ 31
/-- Go `os.ModeSymlink`, bit 27. -/
def ModeSymlink : Nat := 2 ^ 27
/-- Go `os.ModeDevice`, bit 26. -/
def ModeDevice : Nat := 2 ^ 26
/-- Go `os.ModeNamedPipe`, bit 25. -/
def ModeNamedPipe : Nat := 2 ^ 25
/-- Go `os.ModeSocket`, bit 24. -/
def ModeSocket : Nat := 2 ^ 24
/-- Go `os.ModeCharDevice`, bit 21. -/
def ModeCharDevice : Nat := 2 ^ 21
/-- Go `os.ModeIrregular`, bit 19. -/
def ModeIrregular : Nat := 2 ^ 19

/-- Go `os.ModeType`, the mask of the file-type bits. -/
def ModeType : Nat :=
  ModeDir ||| ModeSymlink ||| ModeNamedPipe ||| ModeSocket ||| ModeDevice |||
    ModeCharDevice ||| ModeIrregular

/-- The positions of the file-type bits: directory, symlink, named pipe,
socket, device, character device, irregular. -/
def typeBits : List Nat := [31, 27, 25, 24, 26, 21, 19]

/-- The function `isFile`: `f.Mode() & os.ModeType == 0 && os.ModeSymlink != 0`. -/
def isFile (f : FileInfo) : Bool :=
  (f.mode &&& ModeType == 0) && (ModeSymlink != 0)

/-! ## `filepath.Clean` (Unix) -/

/-- The elements of a path between its slashes. -/
def splitPath : Str → List Str
  | [] => [[]]
  | c :: t =>
    if c = '/' then [] :: splitPath t
    else
      match splitPath t with
      | [] => [[c]]
      | h :: r => (c :: h) :: r

/-- The loop of Go `filepath.Clean` over the elements of the path; `out` is
the output so far, last element first. Empty and `.` elements are dropped, a
`..` element removes the element before it, is dropped at the root, and is
kept at the start of a path that is not rooted. -/
def cleanElems (rooted : Bool) : List Str → List Str → List Str
  | out, [] => out
  | out, e :: es =>
    if e = [] ∨ e = ['.'] then cleanElems rooted out es
    else if e = ['.', '.'] then
      match out with
      | top :: below =>
        if top = ['.', '.'] then cleanElems rooted (e :: out) es
        else cleanElems rooted below es
      | [] => if rooted then cleanElems rooted [] es else cleanElems rooted [e] es
    else cleanElems rooted (e :: out) es

/-- Go `filepath.Clean`: the shortest path name equivalent to `path` by
purely lexical processing; `"."` for the empty result. -/
def Clean (path : Str) : Str :=
  let rooted := decide (path.head? = some '/')
  let body := List.intercalate ['/'] (cleanElems rooted [] (splitPath path)).reverse
  if rooted then '/' :: body else if body = [] then ['.'] else body

/-! ## The scanner: `processPath` -/

/-- One call of the callback by `filepath.Walk`: the path, the file
information and the traversal error, if any. -/
structure Node where
  pathname : Str
  info : FileInfo
  err : Option Str
deriving DecidableEq, Repr

/-- The index under construction, with the paths handed to `checksum` so far. -/
structure ScanState where
  index : Flist
  hashed : List Str
deriving DecidableEq, Repr

/-- The closure `walkfn` of `processPath`. `checksum` gives the hash of a
file, or `none` for an error. The result is the new state and the value the
callback returns: `none` for `nil`, or the traversal error it was given.
The progress and error messages it prints are left out. -/
def walkfn (checksum : Str → Option Str) (st : ScanState) (pathname : Str) (f : FileInfo)
    (err : Option Str) : ScanState × Option Str :=
  match err with
  | some e => (st, some e)
  | none =>
    let pathname := Clean pathname
    if isFile f && match_ pathname then
      match checksum pathname with
      | some csum =>
        ({ index := Flist.add st.index csum pathname, hashed := st.hashed ++ [pathname] }, none)
      | none => ({ st with hashed := st.hashed ++ [pathname] }, none)
    else (st, none)

/-- Go `filepath.Walk` over the nodes it would deliver in order: a callback
result other than `nil` ends the walk. The callback here answers `nil` or the
traversal error it was given, an error of the operating system and never
`filepath.SkipDir`, so skipping a directory does not arise. -/
def walk (fn : ScanState → Node → ScanState × Option Str) : ScanState → List Node → ScanState
  | st, [] => st
  | st, n :: rest =>
    match fn st n with
    | (st1, none) => walk fn st1 rest
    | (st1, some _) => st1

/-- The method `processPath`: the walk of the tree under the cleaned root;
`tree` gives the nodes the file system delivers for a root. -/
def processPath (tree : Str → List Node) (checksum : Str → Option Str) (s : Flist)
    (pathname : Str) : ScanState :=
  walk (fun st n => walkfn checksum st n.pathname n.info n.err)
    { index := s, hashed := [] } (tree (Clean pathname))

/-! ## The copier: `copy` -/

/-- The result of `fcopy` without the elapsed time: bytes copied and error. -/
structure CopyResult where
  nBytes : Int
  err : Option Str
deriving DecidableEq, Repr

/-- Two's complement wrap-around of an `int64`. -/
def wrapInt64 (x : Int) : Int := (x + 2 ^ 63) % 2 ^ 64 - 2 ^ 63

/-- The counters of `copy`, with the list of the copies attempted, each as
the pair `(orig, dedup)` handed to `fcopy`. The elapsed time is left out. -/
structure CopyStats where
  files : Nat
  errors : Nat
  cc : Int
  attempts : List (Str × Str)
deriving DecidableEq, Repr

/-- One iteration of the loop of `copy`, on the entry `v`. -/
def copyStep (fcopy : Str → Str → CopyResult) (st : CopyStats) (v : Entry) : CopyStats :=
  if v.dedup = [] then st
  else
    let r := fcopy v.orig v.dedup
    match r.err with
    | some _ =>
      { st with errors := (st.errors + 1) % 2 ^ 64
                attempts := st.attempts ++ [(v.orig, v.dedup)] }
    | none =>
      { st with files := (st.files + 1) % 2 ^ 64
                cc := wrapInt64 (st.cc + r.nBytes)
                attempts := st.attempts ++ [(v.orig, v.dedup)] }

/-- The method `Flist.copy`; `order` is the iteration order of the map. -/
def Flist.copy (s : Flist) (order : List Str) (fcopy : Str → Str → CopyResult) : CopyStats :=
  order.foldl
    (fun st k =>
      match Flist.lookup s k with
      | none => st
      | some v => copyStep fcopy st v)
    { files := 0, errors := 0, cc := 0, attempts := [] }

/-- The copies an index asks for: the pair `(orig, dedup)` of every entry
whose `dedup` is not empty. -/
def toCopy (es : List Entry) : List (Str × Str) :=
  (es.filter (fun v => decide (v.dedup ≠ []))).map (fun v => (v.orig, v.dedup))

/-- Whether the copy `a` succeeds under `fcopy`. -/
def copyOk (fcopy : Str → Str → CopyResult) (a : Str × Str) : Bool :=
  (fcopy a.1 a.2).err.isNone

/-- The number of bytes `fcopy` reports for the copy `a`. -/
def copyBytes (fcopy : Str → Str → CopyResult) (a : Str × Str) : Int :=
  (fcopy a.1 a.2).nBytes

/-! ## `main` -/

/-- What the program meets outside itself: the file tree, the hashes of the
files, the outcome of each copy, and the order in which `range` iterates. -/
structure World where
  tree : Str → List Node
  checksum : Str → Option Str
  fcopy : Str → Str → CopyResult
  dedupOrder : Flist → List Str
  copyOrder : Flist → List Str

/-- How a run ends: `os.Exit(code)` during flag validation, or a complete
run with the scan, the index after `dedup` and the totals of `copy`. -/
inductive Outcome where
  | exit (code : Nat)
  | done (scan : ScanState) (index : Flist) (report : Option CopyStats)

/-- The function `main`, after flag parsing; printing is left out. -/
def main (w : World) (path dest : Str) (copy verbose justdups quiet : Bool) : Outcome :=
  if path = [] then Outcome.exit 1
  else if dest = [] ∧ copy = true then Outcome.exit 1
  else if dest ≠ [] ∧ copy = false then Outcome.exit 1
  else
    let scan := processPath w.tree w.checksum newFlist path
    let sl := Flist.dedup scan.index (w.dedupOrder scan.index) dest
    if copy then Outcome.done scan sl (some (Flist.copy sl (w.copyOrder sl) w.fcopy))
    else Outcome.done scan sl none

/-! ## Lemmas on the map operations -/

theorem lookup_eq_none_iff (s : Flist) (c : Str) :
    Flist.lookup s c = none ↔ c ∉ Flist.keys s := by
  induction s with
  | nil => simp [Flist.lookup, Flist.keys]
  | cons p t ih =>
    obtain ⟨k, v⟩ := p
    by_cases h : k = c
    · simp [Flist.lookup, Flist.keys, h]
    · have h2 : ¬ c = k := fun e => h e.symm
      simp [Flist.lookup, h, h2, ih, Flist.keys] at *

theorem lookup_isSome_iff (s : Flist) (c : Str) :
    (Flist.lookup s c).isSome = true ↔ c ∈ Flist.keys s := by
  rw [← not_iff_not, ← lookup_eq_none_iff]
  cases Flist.lookup s c <;> simp

theorem store_of_absent (s : Flist) (c : Str) (v : Entry)
    (h : Flist.lookup s c = none) : Flist.store s c v = s ++ [(c, v)] := by
  induction s with
  | nil => rfl
  | cons p t ih =>
    obtain ⟨k, w⟩ := p
    by_cases hk : k = c
    · simp [Flist.lookup, hk] at h
    · simp only [Flist.lookup, hk, if_false] at h
      simp [Flist.store, hk, ih h]

theorem lookup_append (s t : Flist) (c : Str) :
    Flist.lookup (s ++ t) c = (Flist.lookup s c).orElse (fun _ => Flist.lookup t c) := by
  induction s with
  | nil => simp [Flist.lookup]
  | cons p s ih =>
    obtain ⟨k, w⟩ := p
    by_cases hk : k = c
    · simp [Flist.lookup, hk]
    · simp [Flist.lookup, hk, ih]

theorem keys_store (s : Flist) (c : Str) (v : Entry) (h : c ∈ Flist.keys s) :
    Flist.keys (Flist.store s c v) = Flist.keys s := by
  induction s with
  | nil => simp [Flist.keys] at h
  | cons p t ih =>
    obtain ⟨k, w⟩ := p
    by_cases hk : k = c
    · simp [Flist.store, hk, Flist.keys]
    · have : c ∈ Flist.keys t := by
        simp only [Flist.keys, List.map_cons, List.mem_cons] at h
        rcases h with h | h
        · exact absurd h.symm hk
        · exact h
      simp only [Flist.store, hk, if_false, Flist.keys, List.map_cons]
      congr 1
      exact ih this

theorem lookup_store_self (s : Flist) (c : Str) (v : Entry) :
    Flist.lookup (Flist.store s c v) c = some v := by
  induction s with
  | nil => simp [Flist.store, Flist.lookup]
  | cons p t ih =>
    obtain ⟨k, w⟩ := p
    by_cases hk : k = c
    · simp [Flist.store, Flist.lookup, hk]
    · simp [Flist.store, Flist.lookup, hk, ih]

theorem lookup_store_ne (s : Flist) (c d : Str) (v : Entry) (h : c ≠ d) :
    Flist.lookup (Flist.store s c v) d = Flist.lookup s d := by
  induction s with
  | nil => simp [Flist.store, Flist.lookup, h]
  | cons p t ih =>
    obtain ⟨k, w⟩ := p
    by_cases hk : k = c
    · subst hk
      simp [Flist.store, Flist.lookup, h]
    · by_cases hd : k = d
      · subst hd
        simp [Flist.store, Flist.lookup, hk]
      · simp [Flist.store, Flist.lookup, hk, hd, ih]

theorem add_of_present (s : Flist) (c f : Str) (h : c ∈ Flist.keys s) :
    Flist.add s c f = s := by
  have h2 := (lookup_isSome_iff s c).mpr h
  unfold Flist.add
  cases hl : Flist.lookup s c with
  | none => simp [hl] at h2
  | some v => rfl

theorem add_of_absent (s : Flist) (c f : Str) (h : c ∉ Flist.keys s) :
    Flist.add s c f = s ++ [(c, { orig := f, dedup := [] })] := by
  have h2 := (lookup_eq_none_iff s c).mpr h
  unfold Flist.add
  rw [h2]
  exact store_of_absent s c _ h2

theorem keys_add (s : Flist) (c f : Str) (k : Str) :
    k ∈ Flist.keys (Flist.add s c f) ↔ k ∈ Flist.keys s ∨ k = c := by
  by_cases h : c ∈ Flist.keys s
  · rw [add_of_present s c f h]
    constructor
    · exact Or.inl
    · rintro (h1 | h1)
      · exact h1
      · exact h1 ▸ h
  · rw [add_of_absent s c f h]
    simp [Flist.keys]

theorem lookup_add_of_some (s : Flist) (c f k : Str) (v : Entry)
    (h : Flist.lookup s k = some v) : Flist.lookup (Flist.add s c f) k = some v := by
  by_cases hc : c ∈ Flist.keys s
  · rw [add_of_present s c f hc]; exact h
  · rw [add_of_absent s c f hc, lookup_append, h]; rfl

theorem nodup_keys_add (s : Flist) (c f : Str) (h : (Flist.keys s).Nodup) :
    (Flist.keys (Flist.add s c f)).Nodup := by
  by_cases hc : c ∈ Flist.keys s
  · rw [add_of_present s c f hc]; exact h
  · rw [add_of_absent s c f hc]
    simp only [Flist.keys, List.map_append, List.map_cons, List.map_nil]
    rw [List.nodup_append]
    refine ⟨h, List.nodup_singleton c, ?_⟩
    intro a ha hb
    simp only [List.mem_singleton] at hb
    exact hc (hb ▸ ha)

theorem keys_addAll (calls : List (Str × Str)) (s : Flist) (k : Str) :
    k ∈ Flist.keys (addAll s calls) ↔ k ∈ Flist.keys s ∨ k ∈ calls.map Prod.fst := by
  induction calls generalizing s with
  | nil => simp [addAll]
  | cons call rest ih =>
    have := ih (Flist.add s call.1 call.2)
    simp only [addAll, List.foldl_cons] at this ⊢
    rw [this, keys_add]
    simp only [List.map_cons, List.mem_cons]
    tauto

theorem lookup_addAll_of_some (calls : List (Str × Str)) (s : Flist) (k : Str) (v : Entry)
    (h : Flist.lookup s k = some v) : Flist.lookup (addAll s calls) k = some v := by
  induction calls generalizing s with
  | nil => simpa [addAll] using h
  | cons call rest ih =>
    have := ih (Flist.add s call.1 call.2) (lookup_add_of_some s call.1 call.2 k v h)
    simpa [addAll] using this

theorem nodup_keys_addAll (calls : List (Str × Str)) (s : Flist)
    (h : (Flist.keys s).Nodup) : (Flist.keys (addAll s calls)).Nodup := by
  induction calls generalizing s with
  | nil => simpa [addAll] using h
  | cons call rest ih =>
    have := ih (Flist.add s call.1 call.2) (nodup_keys_add s call.1 call.2 h)
    simpa [addAll] using this

theorem addAll_append (s : Flist) (xs ys : List (Str × Str)) :
    addAll s (xs ++ ys) = addAll (addAll s xs) ys := by
  simp [addAll, List.foldl_append]

theorem addAll_of_absent (s : Flist) (pre : List (Str × Str)) (k : Str)
    (h : Flist.lookup s k = none) (hpre : k ∉ pre.map Prod.fst) :
    Flist.lookup (addAll s pre) k = none := by
  rw [lookup_eq_none_iff, keys_addAll]
  rw [lookup_eq_none_iff] at h
  tauto

theorem lookup_addAll_first (s : Flist) (pre post : List (Str × Str)) (k p : Str)
    (h : Flist.lookup s k = none) (hpre : k ∉ pre.map Prod.fst) :
    Flist.lookup (addAll s (pre ++ (k, p) :: post)) k = some { orig := p, dedup := [] } := by
  rw [addAll_append]
  have h1 := addAll_of_absent s pre k h hpre
  have h2 : addAll (addAll s pre) ((k, p) :: post)
      = addAll (Flist.add (addAll s pre) k p) post := by
    simp [addAll]
  rw [h2]
  apply lookup_addAll_of_some
  rw [add_of_absent _ _ _ ((lookup_eq_none_iff _ _).mp h1), lookup_append, h1]
  simp [Flist.lookup]

theorem lookup_mem (s : Flist) (k : Str) (v : Entry) (h : Flist.lookup s k = some v) :
    (k, v) ∈ s := by
  induction s with
  | nil => simp [Flist.lookup] at h
  | cons p t ih =>
    obtain ⟨a, w⟩ := p
    by_cases ha : a = k
    · simp only [Flist.lookup, ha, if_true, Option.some.injEq] at h
      simp [ha, h]
    · simp only [Flist.lookup, ha, if_false] at h
      exact List.mem_cons_of_mem _ (ih h)

theorem all_empty_of_forall (s : Flist) (h : ∀ e ∈ s, e.2.dedup = []) :
    ∀ k v, Flist.lookup s k = some v → v.dedup = [] :=
  fun k v hv => h (k, v) (lookup_mem s k v hv)

/-! ## Lemmas on `dedup` -/

theorem keys_store_any (s : Flist) (c : Str) (v w : Entry) (h : Flist.lookup s c = some w) :
    Flist.keys (Flist.store s c v) = Flist.keys s := by
  apply keys_store
  rw [← lookup_isSome_iff, h]; rfl

theorem dedupStep_keys (dest : Str) (st : DedupState) (k : Str) :
    Flist.keys (dedupStep dest st k).s = Flist.keys st.s := by
  unfold dedupStep
  cases h : Flist.lookup st.s k with
  | none => rfl
  | some v =>
    by_cases hb : Base v.orig ∈ st.nm
    · simp only [hb, if_true]
      exact keys_store_any _ _ _ _ h
    · simp only [hb, if_false]

theorem dedupStep_lookup_ne (dest : Str) (st : DedupState) (k k' : Str) (h : k ≠ k') :
    Flist.lookup (dedupStep dest st k).s k' = Flist.lookup st.s k' := by
  unfold dedupStep
  cases hl : Flist.lookup st.s k with
  | none => rfl
  | some v =>
    by_cases hb : Base v.orig ∈ st.nm
    · simp only [hb, if_true]
      exact lookup_store_ne _ _ _ _ h
    · simp only [hb, if_false]

theorem dedupLoop_keys (dest : Str) (order : List Str) (st : DedupState) :
    Flist.keys (dedupLoop dest st order).s = Flist.keys st.s := by
  induction order generalizing st with
  | nil => rfl
  | cons k rest ih =>
    have := ih (dedupStep dest st k)
    simp only [dedupLoop, List.foldl_cons] at this ⊢
    rw [this, dedupStep_keys]

theorem dedupLoop_lookup_of_not_mem (dest : Str) (order : List Str) (st : DedupState)
    (k : Str) (h : k ∉ order) :
    Flist.lookup (dedupLoop dest st order).s k = Flist.lookup st.s k := by
  induction order generalizing st with
  | nil => rfl
  | cons a rest ih =>
    simp only [List.mem_cons, not_or] at h
    have := ih (dedupStep dest st a) h.2
    simp only [dedupLoop, List.foldl_cons] at this ⊢
    rw [this, dedupStep_lookup_ne _ _ _ _ (fun e => h.1 e.symm)]

theorem renamedKeys_subset (s : Flist) (order seen : List Str) (k : Str)
    (h : k ∈ renamedKeys s seen order) : k ∈ order := by
  induction order generalizing seen with
  | nil => simp [renamedKeys] at h
  | cons a rest ih =>
    unfold renamedKeys at h
    cases hl : Flist.lookup s a with
    | none =>
      simp only [hl] at h
      exact List.mem_cons_of_mem _ (ih _ h)
    | some v =>
      simp only [hl] at h
      by_cases hb : Base v.orig ∈ seen
      · simp only [hb, if_true, List.mem_cons] at h
        rcases h with h | h
        · exact h ▸ List.mem_cons_self _ _
        · exact List.mem_cons_of_mem _ (ih _ h)
      · simp only [hb, if_false] at h
        exact List.mem_cons_of_mem _ (ih _ h)

theorem renamedKeys_congr (s1 s2 : Flist) (order seen : List Str)
    (h : ∀ k ∈ order, Flist.lookup s1 k = Flist.lookup s2 k) :
    renamedKeys s1 seen order = renamedKeys s2 seen order := by
  induction order generalizing seen with
  | nil => rfl
  | cons a rest ih =>
    have ha := h a (List.mem_cons_self _ _)
    have hr : ∀ k ∈ rest, Flist.lookup s1 k = Flist.lookup s2 k :=
      fun k hk => h k (List.mem_cons_of_mem _ hk)
    unfold renamedKeys
    rw [ha]
    cases Flist.lookup s2 a with
    | none => exact ih _ hr
    | some v => simp only [ih _ hr]

theorem dedupStep_of_none (dest : Str) (st : DedupState) (k : Str)
    (h : Flist.lookup st.s k = none) : dedupStep dest st k = st := by
  unfold dedupStep; rw [h]

theorem dedupStep_of_fresh (dest : Str) (st : DedupState) (k : Str) (v : Entry)
    (h : Flist.lookup st.s k = some v) (hb : Base v.orig ∉ st.nm) :
    dedupStep dest st k = { st with nm := List.insert (Base v.orig) st.nm } := by
  unfold dedupStep; rw [h]; simp only [hb, if_false]

theorem dedupStep_of_seen (dest : Str) (st : DedupState) (k : Str) (v : Entry)
    (h : Flist.lookup st.s k = some v) (hb : Base v.orig ∈ st.nm) :
    dedupStep dest st k =
      { s := Flist.store st.s k
          { orig := v.orig
            dedup := sprintfDest dest (Base v.orig) st.cnt (Ext (Base v.orig)) }
        cnt := (st.cnt + 1) % 2 ^ 64
        nm := List.insert (Base v.orig) st.nm } := by
  unfold dedupStep; rw [h]; simp only [hb, if_true]

theorem renamedKeys_of_none (s : Flist) (seen rest : List Str) (k : Str)
    (h : Flist.lookup s k = none) :
    renamedKeys s seen (k :: rest) = renamedKeys s seen rest := by
  rw [renamedKeys]; simp only [h]

theorem renamedKeys_of_fresh (s : Flist) (seen rest : List Str) (k : Str) (v : Entry)
    (h : Flist.lookup s k = some v) (hb : Base v.orig ∉ seen) :
    renamedKeys s seen (k :: rest) = renamedKeys s (List.insert (Base v.orig) seen) rest := by
  rw [renamedKeys]; simp only [h, hb, if_false]

theorem renamedKeys_of_seen (s : Flist) (seen rest : List Str) (k : Str) (v : Entry)
    (h : Flist.lookup s k = some v) (hb : Base v.orig ∈ seen) :
    renamedKeys s seen (k :: rest)
      = k :: renamedKeys s (List.insert (Base v.orig) seen) rest := by
  rw [renamedKeys]; simp only [h, hb, if_true]

/-- The loop of `dedup` from any state: keys that are not renamed keep their
entry, and the `i`-th renamed key gets the name built from the counter
`cnt + i`. -/
theorem dedupLoop_spec (dest : Str) (order : List Str) (st : DedupState)
    (hnd : order.Nodup) (hcnt : st.cnt < 2 ^ 64) :
    (∀ k, k ∉ renamedKeys st.s st.nm order →
        Flist.lookup (dedupLoop dest st order).s k = Flist.lookup st.s k) ∧
    (∀ pre k post v, renamedKeys st.s st.nm order = pre ++ k :: post →
        Flist.lookup st.s k = some v →
        Flist.lookup (dedupLoop dest st order).s k
          = some { orig := v.orig
                   dedup := sprintfDest dest (Base v.orig)
                     ((st.cnt + pre.length) % 2 ^ 64) (Ext (Base v.orig)) }) := by
  induction order generalizing st with
  | nil =>
    refine ⟨fun k _ => rfl, ?_⟩
    intro pre k post v h
    simp [renamedKeys] at h
  | cons a rest ih =>
    have ha : a ∉ rest := (List.nodup_cons.mp hnd).1
    have hrest : rest.Nodup := (List.nodup_cons.mp hnd).2
    have hloop : dedupLoop dest st (a :: rest) = dedupLoop dest (dedupStep dest st a) rest := by
      simp [dedupLoop]
    rw [hloop]
    cases hl : Flist.lookup st.s a with
    | none =>
      rw [dedupStep_of_none dest st a hl, renamedKeys_of_none _ _ _ _ hl]
      exact ih st hrest hcnt
    | some v =>
      by_cases hb : Base v.orig ∈ st.nm
      · rw [dedupStep_of_seen dest st a v hl hb, renamedKeys_of_seen _ _ _ _ v hl hb]
        set st1 : DedupState :=
          { s := Flist.store st.s a
              { orig := v.orig
                dedup := sprintfDest dest (Base v.orig) st.cnt (Ext (Base v.orig)) }
            cnt := (st.cnt + 1) % 2 ^ 64
            nm := List.insert (Base v.orig) st.nm } with hst1
        have hcongr : renamedKeys st.s (List.insert (Base v.orig) st.nm) rest
            = renamedKeys st1.s st1.nm rest := by
          apply renamedKeys_congr
          intro k hk
          have : a ≠ k := fun e => ha (e ▸ hk)
          exact (lookup_store_ne _ _ _ _ this).symm
        rw [hcongr]
        obtain ⟨ih1, ih2⟩ := ih st1 hrest (Nat.mod_lt _ (by norm_num))
        have haR : a ∉ renamedKeys st1.s st1.nm rest :=
          fun h => ha (renamedKeys_subset _ _ _ _ h)
        constructor
        · intro k hk
          simp only [List.mem_cons, not_or] at hk
          rw [ih1 k hk.2]
          exact lookup_store_ne _ _ _ _ (fun e => hk.1 e.symm)
        · intro pre k post w hsplit hw
          cases pre with
          | nil =>
            simp only [List.nil_append, List.cons.injEq] at hsplit
            obtain ⟨hka, _⟩ := hsplit
            subst hka
            rw [ih1 a haR]
            rw [hl] at hw
            cases hw
            have hm : st.cnt % 2 ^ 64 = st.cnt := Nat.mod_eq_of_lt hcnt
            simp only [st1, lookup_store_self, List.length_nil, Nat.add_zero, hm]
          | cons p pre1 =>
            simp only [List.cons_append, List.cons.injEq] at hsplit
            obtain ⟨_, hsplit⟩ := hsplit
            have hkR : k ∈ renamedKeys st1.s st1.nm rest := by
              rw [hsplit]; simp
            have hka : a ≠ k := fun e => haR (e ▸ hkR)
            have hw1 : Flist.lookup st1.s k = some w := by
              rw [← hw]; exact lookup_store_ne _ _ _ _ hka
            rw [ih2 pre1 k post w hsplit hw1]
            have : (st1.cnt + pre1.length) % 2 ^ 64
                = (st.cnt + (pre1.length + 1)) % 2 ^ 64 := by
              simp only [st1]
              omega
            rw [this, List.length_cons]
      · rw [dedupStep_of_fresh dest st a v hl hb, renamedKeys_of_fresh _ _ _ _ v hl hb]
        exact ih { st with nm := List.insert (Base v.orig) st.nm } hrest hcnt

theorem dedup_keys (s : Flist) (order : List Str) (dest : Str) :
    Flist.keys (Flist.dedup s order dest) = Flist.keys s :=
  dedupLoop_keys dest order _

theorem dedup_of_not_renamed (s : Flist) (order : List Str) (dest : Str)
    (hnd : order.Nodup) (k : Str) (hk : k ∉ renamedKeys s [] order) :
    Flist.lookup (Flist.dedup s order dest) k = Flist.lookup s k :=
  (dedupLoop_spec dest order { s := s, cnt := 0, nm := [] } hnd (by norm_num)).1 k hk

theorem dedup_of_renamed (s : Flist) (order : List Str) (dest : Str)
    (hnd : order.Nodup) (pre post : List Str) (k : Str) (v : Entry)
    (hR : renamedKeys s [] order = pre ++ k :: post) (hv : Flist.lookup s k = some v) :
    Flist.lookup (Flist.dedup s order dest) k
      = some { orig := v.orig
               dedup := sprintfDest dest (Base v.orig) (pre.length % 2 ^ 64)
                 (Ext (Base v.orig)) } := by
  have := (dedupLoop_spec dest order { s := s, cnt := 0, nm := [] } hnd (by norm_num)).2
    pre k post v hR hv
  simpa [Flist.dedup] using this

theorem sprintfDest_ne_nil (dest base : Str) (n : Nat) (ext : Str) :
    sprintfDest dest base n ext ≠ [] := by
  simp [sprintfDest]

/-- A key is renamed exactly when its base name was seen before it: among the
base names seen at the start or at an earlier key of the iteration. -/
theorem mem_renamedKeys_iff (s : Flist) (pre post : List Str) (k : Str) (v : Entry)
    (seen : List Str) (hnd : (pre ++ k :: post).Nodup) (hv : Flist.lookup s k = some v) :
    k ∈ renamedKeys s seen (pre ++ k :: post) ↔
      (Base v.orig ∈ seen ∨
        ∃ k1 ∈ pre, ∃ v1, Flist.lookup s k1 = some v1 ∧ Base v1.orig = Base v.orig) := by
  induction pre generalizing seen with
  | nil =>
    simp only [List.nil_append] at hnd ⊢
    have hk : k ∉ post := (List.nodup_cons.mp hnd).1
    by_cases hb : Base v.orig ∈ seen
    · rw [renamedKeys_of_seen _ _ _ _ v hv hb]
      simp [hb]
    · rw [renamedKeys_of_fresh _ _ _ _ v hv hb]
      simp only [hb, List.not_mem_nil, false_and, exists_false, or_self, iff_false]
      exact fun h => hk (renamedKeys_subset _ _ _ _ h)
  | cons a pre1 ih =>
    simp only [List.cons_append] at hnd ⊢
    have hnd1 : (pre1 ++ k :: post).Nodup := (List.nodup_cons.mp hnd).2
    have hak : a ≠ k := by
      intro e
      have := (List.nodup_cons.mp hnd).1
      exact this (by rw [e]; simp)
    cases hl : Flist.lookup s a with
    | none =>
      rw [renamedKeys_of_none _ _ _ _ hl, ih seen hnd1]
      constructor
      · rintro (h | ⟨k1, hk1, v1, h1, h2⟩)
        · exact Or.inl h
        · exact Or.inr ⟨k1, List.mem_cons_of_mem _ hk1, v1, h1, h2⟩
      · rintro (h | ⟨k1, hk1, v1, h1, h2⟩)
        · exact Or.inl h
        · rcases List.mem_cons.mp hk1 with e | hk1
          · rw [e, hl] at h1; cases h1
          · exact Or.inr ⟨k1, hk1, v1, h1, h2⟩
    | some va =>
      have key : k ∈ renamedKeys s seen (a :: (pre1 ++ k :: post)) ↔
          k ∈ renamedKeys s (List.insert (Base va.orig) seen) (pre1 ++ k :: post) := by
        by_cases hb : Base va.orig ∈ seen
        · rw [renamedKeys_of_seen _ _ _ _ va hl hb, List.mem_cons]
          constructor
          · rintro (e | h)
            · exact absurd e.symm hak
            · exact h
          · exact Or.inr
        · rw [renamedKeys_of_fresh _ _ _ _ va hl hb]
      rw [key, ih _ hnd1, List.mem_insert_iff]
      constructor
      · rintro ((h | h) | ⟨k1, hk1, v1, h1, h2⟩)
        · exact Or.inr ⟨a, List.mem_cons_self _ _, va, hl, h.symm⟩
        · exact Or.inl h
        · exact Or.inr ⟨k1, List.mem_cons_of_mem _ hk1, v1, h1, h2⟩
      · rintro (h | ⟨k1, hk1, v1, h1, h2⟩)
        · exact Or.inl (Or.inr h)
        · rcases List.mem_cons.mp hk1 with e | hk1
          · rw [e, hl] at h1; cases h1
            exact Or.inl (Or.inl h2.symm)
          · exact Or.inr ⟨k1, hk1, v1, h1, h2⟩

theorem exists_first_split {α : Type} (p : α → Prop) (l : List α) (h : ∃ x ∈ l, p x) :
    ∃ pre x post, l = pre ++ x :: post ∧ p x ∧ ∀ y ∈ pre, ¬ p y := by
  classical
  induction l with
  | nil => simp at h
  | cons a t ih =>
    by_cases ha : p a
    · exact ⟨[], a, t, rfl, ha, by simp⟩
    · obtain ⟨x, hx, hpx⟩ := h
      have hx1 : x ∈ t := by
        rcases List.mem_cons.mp hx with e | hx
        · exact absurd (e ▸ hpx) ha
        · exact hx
      obtain ⟨pre, y, post, e, hy, hpre⟩ := ih ⟨x, hx1, hpx⟩
      refine ⟨a :: pre, y, post, by simp [e], hy, ?_⟩
      intro z hz
      rcases List.mem_cons.mp hz with e | hz
      · exact e ▸ ha
      · exact hpre z hz

theorem dedup_first_kept (s : Flist) (dest : Str) (pre post : List Str) (k : Str)
    (v : Entry) (hnd : (pre ++ k :: post).Nodup) (hv : Flist.lookup s k = some v)
    (hfirst : ∀ k1 ∈ pre, ∀ v1, Flist.lookup s k1 = some v1 → Base v1.orig ≠ Base v.orig) :
    Flist.lookup (Flist.dedup s (pre ++ k :: post) dest) k = some v := by
  rw [dedup_of_not_renamed s _ dest hnd k, hv]
  rw [mem_renamedKeys_iff s pre post k v [] hnd hv]
  rintro (h | ⟨k1, hk1, v1, h1, h2⟩)
  · simp at h
  · exact hfirst k1 hk1 v1 h1 h2

theorem dedup_later_renamed (s : Flist) (dest : Str) (pre post : List Str) (k : Str)
    (v : Entry) (hnd : (pre ++ k :: post).Nodup) (hv : Flist.lookup s k = some v)
    (hseen : ∃ k1 ∈ pre, ∃ v1, Flist.lookup s k1 = some v1 ∧ Base v1.orig = Base v.orig) :
    ∃ n, n < 2 ^ 64 ∧
      Flist.lookup (Flist.dedup s (pre ++ k :: post) dest) k
        = some { orig := v.orig
                 dedup := sprintfDest dest (Base v.orig) n (Ext (Base v.orig)) } := by
  have hk : k ∈ renamedKeys s [] (pre ++ k :: post) :=
    (mem_renamedKeys_iff s pre post k v [] hnd hv).mpr (Or.inr hseen)
  obtain ⟨rpre, rpost, hR⟩ := List.append_of_mem hk
  exact ⟨rpre.length % 2 ^ 64, Nat.mod_lt _ (by norm_num),
    dedup_of_renamed s _ dest hnd rpre rpost k v hR hv⟩

/-- Every entry of the result is the entry of the input, untouched or with a
destination built by `dedup`. -/
theorem dedup_entry_cases (s : Flist) (order : List Str) (dest : Str) (hnd : order.Nodup)
    (k : Str) (v : Entry) (hv : Flist.lookup s k = some v) :
    Flist.lookup (Flist.dedup s order dest) k = some v ∨
    ∃ n, n < 2 ^ 64 ∧ Flist.lookup (Flist.dedup s order dest) k
        = some { orig := v.orig
                 dedup := sprintfDest dest (Base v.orig) n (Ext (Base v.orig)) } := by
  by_cases hk : k ∈ renamedKeys s [] order
  · obtain ⟨rpre, rpost, hR⟩ := List.append_of_mem hk
    exact Or.inr ⟨rpre.length % 2 ^ 64, Nat.mod_lt _ (by norm_num),
      dedup_of_renamed s _ dest hnd rpre rpost k v hR hv⟩
  · exact Or.inl ((dedup_of_not_renamed s order dest hnd k hk).trans hv)

theorem lookup_some_of_mem_keys (s : Flist) (k : Str) (h : k ∈ Flist.keys s) :
    ∃ v, Flist.lookup s k = some v := by
  have := (lookup_isSome_iff s k).mpr h
  cases hl : Flist.lookup s k with
  | none => simp [hl] at this
  | some v => exact ⟨v, rfl⟩

theorem mem_keys_of_lookup (s : Flist) (k : Str) (v : Entry)
    (h : Flist.lookup s k = some v) : k ∈ Flist.keys s := by
  rw [← lookup_isSome_iff, h]; rfl

theorem dedup_unique_kept (s : Flist) (order : List Str) (dest : Str)
    (hwf : s.WF) (hord : IsIterationOrder s order)
    (hempty : ∀ k v, Flist.lookup s k = some v → v.dedup = [])
    (b : Str) (hb : ∃ k v, Flist.lookup s k = some v ∧ Base v.orig = b) :
    ∃! k, ∃ v, Flist.lookup (Flist.dedup s order dest) k = some v ∧
      Base v.orig = b ∧ v.dedup = [] := by
  have hnd : order.Nodup := hord.nodup_iff.mpr hwf
  have hmem : ∀ k, k ∈ order ↔ k ∈ Flist.keys s := fun k => hord.mem_iff
  obtain ⟨kb, vb, hkb, hvb⟩ := hb
  have hex : ∃ k ∈ order, ∃ v, Flist.lookup s k = some v ∧ Base v.orig = b :=
    ⟨kb, (hmem kb).mpr (mem_keys_of_lookup s kb vb hkb), vb, hkb, hvb⟩
  obtain ⟨pre, k0, post, hsplit, ⟨v0, hv0, hb0⟩, hpre⟩ :=
    exists_first_split (fun k => ∃ v, Flist.lookup s k = some v ∧ Base v.orig = b) order hex
  subst hsplit
  have hkept : Flist.lookup (Flist.dedup s (pre ++ k0 :: post) dest) k0 = some v0 := by
    apply dedup_first_kept s dest pre post k0 v0 hnd hv0
    intro k1 hk1 v1 h1 h2
    exact hpre k1 hk1 ⟨v1, h1, h2.trans hb0⟩
  refine ⟨k0, ⟨v0, hkept, hb0, hempty k0 v0 hv0⟩, ?_⟩
  rintro k ⟨w, hw, hwb, hwd⟩
  by_contra hne
  have hkeys : k ∈ Flist.keys s := by
    rw [← dedup_keys s (pre ++ k0 :: post) dest]
    exact mem_keys_of_lookup _ k w hw
  obtain ⟨v, hv⟩ := lookup_some_of_mem_keys s k hkeys
  have hko : k ∈ pre ++ k0 :: post := (hmem k).mpr hkeys
  have horig : w.orig = v.orig ∧ (w = v ∨ w.dedup ≠ []) := by
    rcases dedup_entry_cases s _ dest hnd k v hv with h | ⟨n, _, h⟩
    · rw [h] at hw; cases hw; exact ⟨rfl, Or.inl rfl⟩
    · rw [h] at hw; cases hw; exact ⟨rfl, Or.inr (sprintfDest_ne_nil _ _ _ _)⟩
  have hvb1 : Base v.orig = b := by rw [← horig.1]; exact hwb
  rcases List.mem_append.mp hko with hk | hk
  · exact hpre k hk ⟨v, hv, hvb1⟩
  · rcases List.mem_cons.mp hk with e | hk
    · exact hne e
    · obtain ⟨p1, p2, hp⟩ := List.append_of_mem hk
      have hre : pre ++ k0 :: post = (pre ++ k0 :: p1) ++ k :: p2 := by
        rw [hp]; simp
      have hnd2 : ((pre ++ k0 :: p1) ++ k :: p2).Nodup := hre ▸ hnd
      obtain ⟨n, _, hren⟩ := dedup_later_renamed s dest (pre ++ k0 :: p1) p2 k v hnd2 hv
        ⟨k0, by simp, v0, hv0, hb0.trans hvb1.symm⟩
      rw [← hre, hw] at hren
      cases hren
      exact sprintfDest_ne_nil _ _ _ _ hwd

theorem perm_pair_cases {α : Type} (a b : α) (l : List α) (h : l.Perm [a, b]) :
    l = [a, b] ∨ l = [b, a] := by
  have hlen := h.length_eq
  match l, hlen with
  | [x, y], _ =>
    have hx : x ∈ [a, b] := h.subset (by simp)
    have hy : y ∈ [a, b] := h.subset (by simp)
    have ha : a ∈ [x, y] := h.symm.subset (by simp)
    have hb : b ∈ [x, y] := h.symm.subset (by simp)
    simp only [List.mem_cons, List.mem_singleton, List.not_mem_nil, or_false] at hx hy ha hb
    rcases hx with rfl | rfl
    · rcases hy with rfl | rfl
      · rcases hb with rfl | rfl <;> simp
      · simp
    · rcases hy with rfl | rfl
      · simp
      · rcases ha with rfl | rfl <;> simp

theorem dedup_two_entries (dest h1 h2 o1 o2 : Str) (hne : h1 ≠ h2)
    (hb1 : Base o1 = "img.jpg".toList) (hb2 : Base o2 = "img.jpg".toList) :
    Flist.dedup [(h1, ⟨o1, []⟩), (h2, ⟨o2, []⟩)] [h1, h2] dest
      = [(h1, ⟨o1, []⟩), (h2, ⟨o2, dest ++ "/img.jpg-0.jpg".toList⟩)] ∧
    Flist.dedup [(h1, ⟨o1, []⟩), (h2, ⟨o2, []⟩)] [h2, h1] dest
      = [(h1, ⟨o1, dest ++ "/img.jpg-0.jpg".toList⟩), (h2, ⟨o2, []⟩)] := by
  have hne2 : ¬ h2 = h1 := fun e => hne e.symm
  have hext : Ext ['i', 'm', 'g', '.', 'j', 'p', 'g'] = ['.', 'j', 'p', 'g'] := by decide
  have hfmt : fmtUint 0 = ['0'] := by decide
  constructor
  · simp [Flist.dedup, dedupLoop, dedupStep, Flist.lookup, Flist.store, hne, hb1, hb2,
      sprintfDest, hfmt, hext]
  · simp [Flist.dedup, dedupLoop, dedupStep, Flist.lookup, Flist.store, hne, hne2, hb1, hb2,
      sprintfDest, hfmt, hext]

/-! ## Lemmas on the destination names -/

theorem digitChar_toNat (d : Nat) (h : d < 10) : (Nat.digitChar d).toNat - 48 = d := by
  interval_cases d <;> rfl

theorem digitChar_not_special (d : Nat) (h : d < 10) :
    Nat.digitChar d ≠ '-' ∧ Nat.digitChar d ≠ '.' ∧ Nat.digitChar d ≠ '/' := by
  interval_cases d <;> decide

theorem toDigitsCore_eq (fuel n : Nat) (ds : List Char) (hn : 0 < n) (hf : n < fuel) :
    Nat.toDigitsCore 10 fuel n ds = (Nat.digits 10 n).reverse.map Nat.digitChar ++ ds := by
  induction fuel generalizing n ds with
  | zero => omega
  | succ fuel ih =>
    rw [Nat.digits_def' (by norm_num) hn]
    simp only [Nat.toDigitsCore, List.reverse_cons, List.map_append, List.map_cons,
      List.map_nil, List.append_assoc, List.singleton_append]
    by_cases h0 : n / 10 = 0
    · simp [h0]
    · simp only [h0, if_false]
      exact ih (n / 10) _ (Nat.pos_of_ne_zero h0) (by omega)

theorem fmtUint_eq (n : Nat) :
    fmtUint n = if n = 0 then ['0'] else (Nat.digits 10 n).reverse.map Nat.digitChar := by
  by_cases hn : n = 0
  · subst hn; rfl
  · simp only [hn, if_false, fmtUint, Nat.toDigits]
    rw [toDigitsCore_eq (n + 1) n [] (Nat.pos_of_ne_zero hn) (by omega), List.append_nil]

theorem fmtUint_not_special (n : Nat) (c : Char) (h : c ∈ fmtUint n) :
    c ≠ '-' ∧ c ≠ '.' ∧ c ≠ '/' := by
  rw [fmtUint_eq] at h
  by_cases hn : n = 0
  · simp only [hn, if_true, List.mem_singleton] at h
    subst h
    decide
  · simp only [hn, if_false, List.mem_map, List.mem_reverse] at h
    obtain ⟨d, hd, rfl⟩ := h
    exact digitChar_not_special d (Nat.digits_lt_base (by norm_num) hd)

theorem fmtUint_decode (n : Nat) :
    Nat.ofDigits 10 ((fmtUint n).map (fun c => c.toNat - 48)).reverse = n := by
  rw [fmtUint_eq]
  by_cases hn : n = 0
  · subst hn
    simp only [if_true, List.map_cons, List.map_nil, List.reverse_singleton]
    rfl
  · simp only [hn, if_false, List.map_map]
    have : (Nat.digits 10 n).reverse.map ((fun c => c.toNat - 48) ∘ Nat.digitChar)
        = (Nat.digits 10 n).reverse := by
      conv_rhs => rw [← List.map_id (Nat.digits 10 n).reverse]
      apply List.map_congr_left
      intro d hd
      rw [List.mem_reverse] at hd
      simpa using digitChar_toNat d (Nat.digits_lt_base (by norm_num) hd)
    rw [this, List.reverse_reverse, Nat.ofDigits_digits]

theorem fmtUint_injective (n m : Nat) (h : fmtUint n = fmtUint m) : n = m := by
  rw [← fmtUint_decode n, ← fmtUint_decode m, h]

theorem extLoop_skip (l r acc : Str) (hl : ∀ c ∈ l, c ≠ '.' ∧ c ≠ '/') :
    extLoop (l ++ r) acc = extLoop r (l.reverse ++ acc) := by
  induction l generalizing acc with
  | nil => rfl
  | cons c t ih =>
    have hc := hl c (List.mem_cons_self _ _)
    have ht : ∀ x ∈ t, x ≠ '.' ∧ x ≠ '/' := fun x hx => hl x (List.mem_cons_of_mem _ hx)
    have hstep : extLoop (c :: t ++ r) acc = extLoop (t ++ r) (c :: acc) := by
      simp [extLoop, isPathSeparator, hc.1, hc.2]
    rw [hstep, ih _ ht]
    simp

theorem extLoop_nil_iff (r acc acc1 : Str) : extLoop r acc = [] ↔ extLoop r acc1 = [] := by
  induction r generalizing acc acc1 with
  | nil => simp [extLoop]
  | cons c t ih =>
    by_cases h1 : c = '/'
    · simp [extLoop, isPathSeparator, h1]
    · by_cases h2 : c = '.'
      · simp [extLoop, isPathSeparator, h2]
      · simp only [extLoop, isPathSeparator, h1, h2, decide_False, Bool.false_eq_true, if_false]
        exact ih _ _

/-- A non-empty result of the loop of `Ext` is a dot, the characters passed
before it, none of them a dot or a slash, and the accumulator. -/
theorem extLoop_shape (r acc : Str) (h : extLoop r acc ≠ []) :
    ∃ e : Str, extLoop r acc = '.' :: (e.reverse ++ acc) ∧ (∀ c ∈ e, c ≠ '.' ∧ c ≠ '/') := by
  induction r generalizing acc with
  | nil => simp [extLoop] at h
  | cons c t ih =>
    by_cases h1 : c = '/'
    · simp [extLoop, isPathSeparator, h1] at h
    · by_cases h2 : c = '.'
      · exact ⟨[], by simp [extLoop, isPathSeparator, h2], by simp⟩
      · simp only [extLoop, isPathSeparator, h1, h2, decide_False, Bool.false_eq_true,
          if_false] at h ⊢
        obtain ⟨e, he, hne⟩ := ih (c :: acc) h
        refine ⟨c :: e, ?_, ?_⟩
        · rw [he]; simp
        · intro x hx
          rcases List.mem_cons.mp hx with rfl | hx
          · exact ⟨h2, h1⟩
          · exact hne x hx

theorem Ext_of_name (base digits : Str) (hd : ∀ c ∈ digits, c ≠ '.' ∧ c ≠ '/') :
    Ext (base ++ '-' :: (digits ++ Ext base)) = Ext base := by
  by_cases he : Ext base = []
  · rw [he]
    unfold Ext at he ⊢
    have hrev : (base ++ '-' :: (digits ++ [])).reverse
        = (digits.reverse ++ ['-']) ++ base.reverse := by simp
    rw [hrev, extLoop_skip]
    · exact (extLoop_nil_iff _ _ _).mp he
    · intro c hc
      rcases List.mem_append.mp hc with hc | hc
      · exact hd c (List.mem_reverse.mp hc)
      · simp only [List.mem_singleton] at hc
        subst hc
        decide
  · obtain ⟨e, hshape, hne⟩ := extLoop_shape base.reverse [] he
    have hE : Ext base = '.' :: e.reverse := by
      unfold Ext; rw [hshape]; simp
    rw [hE]
    unfold Ext
    have hrev : (base ++ '-' :: (digits ++ '.' :: e.reverse)).reverse
        = e ++ '.' :: (digits.reverse ++ '-' :: base.reverse) := by simp
    rw [hrev, extLoop_skip _ _ _ hne]
    simp [extLoop, isPathSeparator]

theorem split_unique {α : Type} (a : α) (l1 l2 r1 r2 : List α)
    (h : l1 ++ a :: r1 = l2 ++ a :: r2) (h1 : a ∉ l1) (h2 : a ∉ l2) : l1 = l2 := by
  induction l1 generalizing l2 with
  | nil =>
    cases l2 with
    | nil => rfl
    | cons b t =>
      simp only [List.nil_append, List.cons_append, List.cons.injEq] at h
      exact absurd (h.1 ▸ List.mem_cons_self _ _) h2
  | cons c t ih =>
    cases l2 with
    | nil =>
      simp only [List.nil_append, List.cons_append, List.cons.injEq] at h
      exact absurd (h.1 ▸ List.mem_cons_self _ _) h1
    | cons b t2 =>
      simp only [List.cons_append, List.cons.injEq] at h
      rw [h.1, ih t2 h.2 (fun hm => h1 (List.mem_cons_of_mem _ hm))
        (fun hm => h2 (List.mem_cons_of_mem _ hm))]

/-- Names built by `dedup` for the same destination from different counters
differ, whatever the base names are. -/
theorem sprintfDest_counter_injective (dest b1 b2 : Str) (n1 n2 : Nat)
    (h : sprintfDest dest b1 n1 (Ext b1) = sprintfDest dest b2 n2 (Ext b2)) : n1 = n2 := by
  unfold sprintfDest at h
  have h1 := List.append_cancel_left h
  simp only [List.cons.injEq, true_and] at h1
  have hd1 : ∀ c ∈ fmtUint n1, c ≠ '.' ∧ c ≠ '/' :=
    fun c hc => (fmtUint_not_special n1 c hc).2
  have hd2 : ∀ c ∈ fmtUint n2, c ≠ '.' ∧ c ≠ '/' :=
    fun c hc => (fmtUint_not_special n2 c hc).2
  have hext : Ext b1 = Ext b2 := by
    rw [← Ext_of_name b1 (fmtUint n1) hd1, ← Ext_of_name b2 (fmtUint n2) hd2, h1]
  rw [hext] at h1
  have h2 : (b1 ++ '-' :: fmtUint n1) ++ Ext b2 = (b2 ++ '-' :: fmtUint n2) ++ Ext b2 := by
    simpa using h1
  have h3 := congrArg List.reverse (List.append_cancel_right h2)
  simp only [List.reverse_append, List.reverse_cons, List.append_assoc,
    List.singleton_append] at h3
  have h4 := split_unique '-' _ _ _ _ h3
    (fun hm => (fmtUint_not_special n1 _ (List.mem_reverse.mp hm)).1 rfl)
    (fun hm => (fmtUint_not_special n2 _ (List.mem_reverse.mp hm)).1 rfl)
  exact fmtUint_injective n1 n2 (List.reverse_injective h4)

theorem renamedKeys_sublist (s : Flist) (order seen : List Str) :
    (renamedKeys s seen order).Sublist order := by
  induction order generalizing seen with
  | nil => simp [renamedKeys]
  | cons a rest ih =>
    cases hl : Flist.lookup s a with
    | none =>
      rw [renamedKeys_of_none _ _ _ _ hl]
      exact (ih seen).cons a
    | some v =>
      by_cases hb : Base v.orig ∈ seen
      · rw [renamedKeys_of_seen _ _ _ _ v hl hb]
        exact (ih _).cons₂ a
      · rw [renamedKeys_of_fresh _ _ _ _ v hl hb]
        exact (ih _).cons a

theorem renamedKeys_lookup (s : Flist) (order seen : List Str) (k : Str)
    (h : k ∈ renamedKeys s seen order) : ∃ v, Flist.lookup s k = some v := by
  induction order generalizing seen with
  | nil => simp [renamedKeys] at h
  | cons a rest ih =>
    cases hl : Flist.lookup s a with
    | none =>
      rw [renamedKeys_of_none _ _ _ _ hl] at h
      exact ih _ h
    | some v =>
      by_cases hb : Base v.orig ∈ seen
      · rw [renamedKeys_of_seen _ _ _ _ v hl hb] at h
        rcases List.mem_cons.mp h with e | h
        · exact ⟨v, e ▸ hl⟩
        · exact ih _ h
      · rw [renamedKeys_of_fresh _ _ _ _ v hl hb] at h
        exact ih _ h

theorem keys_length (s : Flist) : (Flist.keys s).length = s.length := by
  simp [Flist.keys]

/-- With destinations empty at the start, the entries with a destination after
`dedup` are those of the renamed keys. -/
theorem dedup_nonempty_iff (s : Flist) (order : List Str) (dest : Str) (hnd : order.Nodup)
    (hempty : ∀ k v, Flist.lookup s k = some v → v.dedup = [])
    (k : Str) (v : Entry) (hv : Flist.lookup (Flist.dedup s order dest) k = some v) :
    v.dedup ≠ [] ↔ k ∈ renamedKeys s [] order := by
  constructor
  · intro hne
    by_contra hk
    rw [dedup_of_not_renamed s order dest hnd k hk] at hv
    exact hne (hempty k v hv)
  · intro hk
    obtain ⟨w, hw⟩ := renamedKeys_lookup s order [] k hk
    obtain ⟨rpre, rpost, hR⟩ := List.append_of_mem hk
    rw [dedup_of_renamed s order dest hnd rpre rpost k w hR hw] at hv
    cases hv
    exact sprintfDest_ne_nil _ _ _ _

/-- The renamed key at position `i` of the iteration gets the counter `i`. -/
theorem dedup_counter_at (s : Flist) (order : List Str) (dest : Str) (hnd : order.Nodup)
    (hsize : order.length < 2 ^ 64) (i : Nat) (hi : i < (renamedKeys s [] order).length) :
    ∃ v, Flist.lookup s ((renamedKeys s [] order).get ⟨i, hi⟩) = some v ∧
      Flist.lookup (Flist.dedup s order dest) ((renamedKeys s [] order).get ⟨i, hi⟩)
        = some { orig := v.orig
                 dedup := sprintfDest dest (Base v.orig) i (Ext (Base v.orig)) } := by
  obtain ⟨v, hv⟩ := renamedKeys_lookup s order [] _ (List.get_mem _ i hi)
  refine ⟨v, hv, ?_⟩
  have hsplit : renamedKeys s [] order
      = (renamedKeys s [] order).take i
        ++ (renamedKeys s [] order).get ⟨i, hi⟩ :: (renamedKeys s [] order).drop (i + 1) := by
    simp
  have hlen : ((renamedKeys s [] order).take i).length = i := by
    rw [List.length_take]; omega
  have hR := dedup_of_renamed s order dest hnd _ _ _ v hsplit hv
  have hle := (renamedKeys_sublist s order []).length_le
  rw [hlen, Nat.mod_eq_of_lt (by omega)] at hR
  exact hR

theorem dedup_dests_distinct (s : Flist) (order : List Str) (dest : Str) (hnd : order.Nodup)
    (hsize : order.length < 2 ^ 64)
    (hempty : ∀ k v, Flist.lookup s k = some v → v.dedup = [])
    (k1 k2 : Str) (v1 v2 : Entry) (hne : k1 ≠ k2)
    (h1 : Flist.lookup (Flist.dedup s order dest) k1 = some v1)
    (h2 : Flist.lookup (Flist.dedup s order dest) k2 = some v2)
    (hd1 : v1.dedup ≠ []) : v1.dedup ≠ v2.dedup := by
  intro heq
  have hd2 : v2.dedup ≠ [] := heq ▸ hd1
  have hk1 := (dedup_nonempty_iff s order dest hnd hempty k1 v1 h1).mp hd1
  have hk2 := (dedup_nonempty_iff s order dest hnd hempty k2 v2 h2).mp hd2
  obtain ⟨w1, hw1⟩ := renamedKeys_lookup s order [] k1 hk1
  obtain ⟨w2, hw2⟩ := renamedKeys_lookup s order [] k2 hk2
  obtain ⟨p1, q1, hR1⟩ := List.append_of_mem hk1
  obtain ⟨p2, q2, hR2⟩ := List.append_of_mem hk2
  have e1 := dedup_of_renamed s order dest hnd p1 q1 k1 w1 hR1 hw1
  have e2 := dedup_of_renamed s order dest hnd p2 q2 k2 w2 hR2 hw2
  rw [h1] at e1
  rw [h2] at e2
  cases e1
  cases e2
  have hle := (renamedKeys_sublist s order []).length_le
  have hl1 : p1.length < 2 ^ 64 := by
    have : p1.length < (renamedKeys s [] order).length := by rw [hR1]; simp
    omega
  have hl2 : p2.length < 2 ^ 64 := by
    have : p2.length < (renamedKeys s [] order).length := by rw [hR2]; simp
    omega
  have hcnt := sprintfDest_counter_injective dest _ _ _ _ heq
  rw [Nat.mod_eq_of_lt hl1, Nat.mod_eq_of_lt hl2] at hcnt
  have hsame := hR1.symm.trans hR2
  have := (List.append_inj hsame hcnt).2
  simp only [List.cons.injEq] at this
  exact hne this.1

/-! ## Lemmas on `Match` and `match` -/

theorem matchStar_sound (items : List Item) (name t : Str)
    (h : matchStar items true name = some t) :
    t = [] ∧ ∃ pre suf, name = pre ++ suf ∧ (∀ c ∈ pre, c ≠ '/') ∧
      matchItems items suf = some [] := by
  induction name with
  | nil => simp [matchStar] at h
  | cons c rest ih =>
    unfold matchStar at h
    by_cases hc : c = '/'
    · simp [isPathSeparator, hc] at h
    · simp only [isPathSeparator, hc, decide_False, Bool.false_eq_true, if_false] at h
      have lift : (t = [] ∧ ∃ pre suf, rest = pre ++ suf ∧ (∀ c ∈ pre, c ≠ '/') ∧
          matchItems items suf = some []) →
          t = [] ∧ ∃ pre suf, c :: rest = pre ++ suf ∧ (∀ c ∈ pre, c ≠ '/') ∧
          matchItems items suf = some [] := by
        rintro ⟨ht, pre, suf, e, hp, hm⟩
        refine ⟨ht, c :: pre, suf, by simp [e], ?_, hm⟩
        intro x hx
        rcases List.mem_cons.mp hx with rfl | hx
        · exact hc
        · exact hp x hx
      cases hm : matchItems items rest with
      | none =>
        simp only [hm] at h
        exact lift (ih h)
      | some u =>
        simp only [hm] at h
        by_cases hu : u = []
        · subst hu
          simp only [ne_eq, not_true_eq_false, decide_False, Bool.and_false,
            Bool.false_eq_true, if_false, Option.some.injEq] at h
          subst h
          exact ⟨rfl, [c], rest, rfl, by simpa using hc, hm⟩
        · simp only [ne_eq, hu, not_false_eq_true, decide_True, Bool.and_self, if_true] at h
          exact lift (ih h)

theorem matchStar_complete (items : List Item) (pre suf : Str) (hpre : pre ≠ [])
    (hns : ∀ c ∈ pre, c ≠ '/') (hm : matchItems items suf = some []) :
    matchStar items true (pre ++ suf) = some [] := by
  induction pre with
  | nil => exact absurd rfl hpre
  | cons c pre1 ih =>
    have hc : c ≠ '/' := hns c (List.mem_cons_self _ _)
    have hns1 : ∀ x ∈ pre1, x ≠ '/' := fun x hx => hns x (List.mem_cons_of_mem _ hx)
    simp only [List.cons_append]
    unfold matchStar
    simp only [isPathSeparator, hc, decide_False, Bool.false_eq_true, if_false]
    by_cases hp1 : pre1 = []
    · subst hp1
      simp [hm]
    · have hrec := ih hp1 hns1
      cases hm1 : matchItems items (pre1 ++ suf) with
      | none => simpa using hrec
      | some u =>
        by_cases hu : u = []
        · simp [hu]
        · simpa [hu] using hrec

/-- A pattern made of one starred chunk matches the names that end in a match
of the chunk, with no separator before it. -/
theorem matchChunks_star_iff (items : List Item) (hi : items ≠ []) (name : Str) :
    matchChunks [{ star := true, items := items }] name = true ↔
      ∃ pre suf, name = pre ++ suf ∧ (∀ c ∈ pre, c ≠ '/') ∧
        matchItems items suf = some [] := by
  have hstar : (match matchStar items true name with
      | some t => matchChunks [] t
      | none => false) = true →
      ∃ pre suf, name = pre ++ suf ∧ (∀ c ∈ pre, c ≠ '/') ∧
        matchItems items suf = some [] := by
    intro h
    cases hs : matchStar items true name with
    | none => simp [hs] at h
    | some t => exact (matchStar_sound items name t hs).2
  constructor
  · intro h
    simp only [matchChunks, hi, decide_False, Bool.and_false, Bool.false_eq_true, if_false,
      if_true, decide_True, ne_eq, not_true_eq_false, Bool.or_false] at h
    cases hm : matchItems items name with
    | none =>
      simp only [hm] at h
      exact hstar h
    | some t =>
      simp only [hm] at h
      by_cases ht : t = []
      · subst ht
        exact ⟨[], name, rfl, by simp, hm⟩
      · simp only [ht, decide_False, Bool.false_eq_true, if_false] at h
        exact hstar h
  · rintro ⟨pre, suf, e, hns, hm⟩
    simp only [matchChunks, hi, decide_False, Bool.and_false, Bool.false_eq_true, if_false,
      if_true, decide_True, ne_eq, not_true_eq_false, Bool.or_false]
    by_cases hpre : pre = []
    · subst hpre
      simp only [List.nil_append] at e
      subst e
      simp [hm, matchChunks]
    · have hs := matchStar_complete items pre suf hpre hns hm
      rw [← e] at hs
      cases hm1 : matchItems items name with
      | none => simp [hs, matchChunks]
      | some t =>
        by_cases ht : t = []
        · simp [ht, matchChunks]
        · simp [ht, hs, matchChunks]

theorem inRanges_pair (x c d : Char) :
    inRanges x [(c, c), (d, d)] = (decide (x = c) || decide (x = d)) := by
  have h1 : ∀ y : Char, (decide (y ≤ x) && decide (x ≤ y)) = decide (x = y) := by
    intro y
    by_cases h : x = y
    · subst h; simp
    · have : ¬ (y ≤ x ∧ x ≤ y) := fun hh => h (Char.le_antisymm hh.2 hh.1)
      simp only [h, decide_False]
      simpa using this
  simp [inRanges, h1]

/-- The items of the four patterns of `match`. -/
theorem parse_regex :
    parsePattern 15 "*.[jJ][pP][gG]".toList = some [⟨true, [Item.lit '.',
      Item.cls false [('j', 'j'), ('J', 'J')], Item.cls false [('p', 'p'), ('P', 'P')],
      Item.cls false [('g', 'g'), ('G', 'G')]]⟩] ∧
    parsePattern 19 "*.[mM][pP][eE][gG]".toList = some [⟨true, [Item.lit '.',
      Item.cls false [('m', 'm'), ('M', 'M')], Item.cls false [('p', 'p'), ('P', 'P')],
      Item.cls false [('e', 'e'), ('E', 'E')], Item.cls false [('g', 'g'), ('G', 'G')]]⟩] ∧
    parsePattern 12 "*.[mM][pP]4".toList = some [⟨true, [Item.lit '.',
      Item.cls false [('m', 'm'), ('M', 'M')], Item.cls false [('p', 'p'), ('P', 'P')],
      Item.lit '4']⟩] ∧
    parsePattern 15 "*.[Gg][Ii][Ff]".toList = some [⟨true, [Item.lit '.',
      Item.cls false [('G', 'G'), ('g', 'g')], Item.cls false [('I', 'I'), ('i', 'i')],
      Item.cls false [('F', 'F'), ('f', 'f')]]⟩] := by
  refine ⟨?_, ?_, ?_, ?_⟩ <;> decide

theorem accepts_lit (c : Char) (hc : c.toUpper = c) (x : Char) :
    itemAccepts (Item.lit c) x = sameLetter c x := by
  simp only [itemAccepts, sameLetter]
  rw [hc, Bool.or_self]
  by_cases h : c = x
  · simp [h]
  · have : ¬ x = c := fun e => h e.symm
    simp [h, this]

theorem accepts_cls (c u : Char) (hu : c.toUpper = u) (x : Char) :
    itemAccepts (Item.cls false [(c, c), (u, u)]) x = sameLetter c x ∧
    itemAccepts (Item.cls false [(u, u), (c, c)]) x = sameLetter c x := by
  simp only [itemAccepts, sameLetter]
  rw [inRanges_pair, inRanges_pair, hu]
  constructor
  · cases decide (x = c) <;> cases decide (x = u) <;> rfl
  · cases decide (x = c) <;> cases decide (x = u) <;> rfl

/-- A chunk whose items stand, one by one, for the characters of `ext` in
either case matches exactly the strings equal to `ext` up to case. -/
theorem matchItems_foldEq (items : List Item) (ext : Str)
    (h : List.Forall₂ (fun it c => ∀ x, itemAccepts it x = sameLetter c x) items ext)
    (suf : Str) : matchItems items suf = some [] ↔ foldEq ext suf = true := by
  induction h generalizing suf with
  | nil =>
    cases suf with
    | nil => simp [matchItems, foldEq]
    | cons x t => simp [matchItems, foldEq]
  | cons hit _ ih =>
    cases suf with
    | nil => simp [matchItems, foldEq]
    | cons x t =>
      simp only [matchItems, foldEq, hit x]
      cases sameLetter _ x
      · simp
      · simpa using ih t

theorem items_of_regex :
    List.Forall₂ (fun it c => ∀ x, itemAccepts it x = sameLetter c x)
      [Item.lit '.', Item.cls false [('j', 'j'), ('J', 'J')],
        Item.cls false [('p', 'p'), ('P', 'P')], Item.cls false [('g', 'g'), ('G', 'G')]]
      ".jpg".toList ∧
    List.Forall₂ (fun it c => ∀ x, itemAccepts it x = sameLetter c x)
      [Item.lit '.', Item.cls false [('m', 'm'), ('M', 'M')],
        Item.cls false [('p', 'p'), ('P', 'P')], Item.cls false [('e', 'e'), ('E', 'E')],
        Item.cls false [('g', 'g'), ('G', 'G')]]
      ".mpeg".toList ∧
    List.Forall₂ (fun it c => ∀ x, itemAccepts it x = sameLetter c x)
      [Item.lit '.', Item.cls false [('m', 'm'), ('M', 'M')],
        Item.cls false [('p', 'p'), ('P', 'P')], Item.lit '4']
      ".mp4".toList ∧
    List.Forall₂ (fun it c => ∀ x, itemAccepts it x = sameLetter c x)
      [Item.lit '.', Item.cls false [('G', 'G'), ('g', 'g')],
        Item.cls false [('I', 'I'), ('i', 'i')], Item.cls false [('F', 'F'), ('f', 'f')]]
      ".gif".toList := by
  have hdot := accepts_lit '.' (by decide)
  have h4 := accepts_lit '4' (by decide)
  have hj := accepts_cls 'j' 'J' (by decide)
  have hp := accepts_cls 'p' 'P' (by decide)
  have hg := accepts_cls 'g' 'G' (by decide)
  have hm := accepts_cls 'm' 'M' (by decide)
  have he := accepts_cls 'e' 'E' (by decide)
  have hi := accepts_cls 'i' 'I' (by decide)
  have hf := accepts_cls 'f' 'F' (by decide)
  refine ⟨?_, ?_, ?_, ?_⟩
  · exact .cons hdot (.cons (fun x => (hj x).1) (.cons (fun x => (hp x).1)
      (.cons (fun x => (hg x).1) .nil)))
  · exact .cons hdot (.cons (fun x => (hm x).1) (.cons (fun x => (hp x).1)
      (.cons (fun x => (he x).1) (.cons (fun x => (hg x).1) .nil))))
  · exact .cons hdot (.cons (fun x => (hm x).1) (.cons (fun x => (hp x).1)
      (.cons h4 .nil)))
  · exact .cons hdot (.cons (fun x => (hg x).2) (.cons (fun x => (hi x).2)
      (.cons (fun x => (hf x).2) .nil)))

theorem foldEq_length (ext suf : Str) (h : foldEq ext suf = true) :
    suf.length = ext.length := by
  induction ext generalizing suf with
  | nil =>
    cases suf with
    | nil => rfl
    | cons x t => simp [foldEq] at h
  | cons c cs ih =>
    cases suf with
    | nil => simp [foldEq] at h
    | cons x t =>
      simp only [foldEq, Bool.and_eq_true] at h
      simp [ih t h.2]

theorem endsWithFold_iff (ext name : Str) :
    endsWithFold ext name = true ↔ ∃ pre suf, name = pre ++ suf ∧ foldEq ext suf = true := by
  unfold endsWithFold
  constructor
  · intro h
    exact ⟨name.take (name.length - ext.length), name.drop (name.length - ext.length),
      (List.take_append_drop _ _).symm, h⟩
  · rintro ⟨pre, suf, rfl, h⟩
    have hl := foldEq_length ext suf h
    have : (pre ++ suf).length - ext.length = pre.length := by
      rw [List.length_append, hl]; omega
    rw [this, List.drop_left]
    exact h

theorem Base_no_separator (path : Str) :
    Base path = ['/'] ∨ ∀ c ∈ Base path, c ≠ '/' := by
  unfold Base
  by_cases hp : path = []
  · right
    simp [hp]
  · simp only [hp, if_false]
    split
    · exact Or.inl rfl
    · right
      intro c hc
      rw [List.mem_reverse] at hc
      have := List.mem_takeWhile_imp hc
      simpa [isPathSeparator] using this

/-- On a base name, a starred chunk standing for `ext` matches exactly the
names that end in `ext` up to case. -/
theorem matchChunks_ext_iff (items : List Item) (ext : Str)
    (h : List.Forall₂ (fun it c => ∀ x, itemAccepts it x = sameLetter c x) items ext)
    (hlen : 2 ≤ ext.length) (path : Str) :
    matchChunks [{ star := true, items := items }] (Base path) = true ↔
      endsWithFold ext (Base path) = true := by
  have hi : items ≠ [] := by
    intro e
    subst e
    cases h
    simp at hlen
  rw [matchChunks_star_iff items hi, endsWithFold_iff]
  constructor
  · rintro ⟨pre, suf, e, _, hm⟩
    exact ⟨pre, suf, e, (matchItems_foldEq items ext h suf).mp hm⟩
  · rintro ⟨pre, suf, e, hf⟩
    refine ⟨pre, suf, e, ?_, (matchItems_foldEq items ext h suf).mpr hf⟩
    have hl := foldEq_length ext suf hf
    rcases Base_no_separator path with hb | hb
    · rw [hb] at e
      have := congrArg List.length e
      simp only [List.length_singleton, List.length_append] at this
      omega
    · intro c hc
      apply hb
      rw [e]
      exact List.mem_append_left _ hc

theorem Match_regex (name : Str) :
    (Match "*.[jJ][pP][gG]".toList name).1 = matchChunks [⟨true, [Item.lit '.',
      Item.cls false [('j', 'j'), ('J', 'J')], Item.cls false [('p', 'p'), ('P', 'P')],
      Item.cls false [('g', 'g'), ('G', 'G')]]⟩] name ∧
    (Match "*.[mM][pP][eE][gG]".toList name).1 = matchChunks [⟨true, [Item.lit '.',
      Item.cls false [('m', 'm'), ('M', 'M')], Item.cls false [('p', 'p'), ('P', 'P')],
      Item.cls false [('e', 'e'), ('E', 'E')], Item.cls false [('g', 'g'), ('G', 'G')]]⟩] name ∧
    (Match "*.[mM][pP]4".toList name).1 = matchChunks [⟨true, [Item.lit '.',
      Item.cls false [('m', 'm'), ('M', 'M')], Item.cls false [('p', 'p'), ('P', 'P')],
      Item.lit '4']⟩] name ∧
    (Match "*.[Gg][Ii][Ff]".toList name).1 = matchChunks [⟨true, [Item.lit '.',
      Item.cls false [('G', 'G'), ('g', 'g')], Item.cls false [('I', 'I'), ('i', 'i')],
      Item.cls false [('F', 'F'), ('f', 'f')]]⟩] name := by
  obtain ⟨p1, p2, p3, p4⟩ := parse_regex
  refine ⟨?_, ?_, ?_, ?_⟩
  · unfold Match
    rw [show ("*.[jJ][pP][gG]".toList).length + 1 = 15 from rfl, p1]
  · unfold Match
    rw [show ("*.[mM][pP][eE][gG]".toList).length + 1 = 19 from rfl, p2]
  · unfold Match
    rw [show ("*.[mM][pP]4".toList).length + 1 = 12 from rfl, p3]
  · unfold Match
    rw [show ("*.[Gg][Ii][Ff]".toList).length + 1 = 15 from rfl, p4]

/-- What `match` accepts: the paths whose base name ends, in any mix of
cases, in `.jpg`, `.mpeg`, `.mp4` or `.gif`. -/
theorem match_iff (f : Str) : match_ f = true ↔ hasEnding codeExts (Base f) = true := by
  obtain ⟨m1, m2, m3, m4⟩ := Match_regex (Base f)
  obtain ⟨i1, i2, i3, i4⟩ := items_of_regex
  have e1 := matchChunks_ext_iff _ _ i1 (by decide) f
  have e2 := matchChunks_ext_iff _ _ i2 (by decide) f
  have e3 := matchChunks_ext_iff _ _ i3 (by decide) f
  have e4 := matchChunks_ext_iff _ _ i4 (by decide) f
  rw [← m1] at e1
  rw [← m2] at e2
  rw [← m3] at e3
  rw [← m4] at e4
  simp only [match_, regex, hasEnding, codeExts, List.any_cons, List.any_nil, Bool.or_false,
    Bool.or_eq_true, e1, e2, e3, e4]

/-! ## Lemmas on `isFile` -/

theorem ModeType_testBit (i : Nat) : ModeType.testBit i = decide (i ∈ typeBits) := by
  simp only [ModeType, ModeDir, ModeSymlink, ModeNamedPipe, ModeSocket, ModeDevice,
    ModeCharDevice, ModeIrregular, Nat.testBit_or, Nat.testBit_two_pow, typeBits]
  by_cases h31 : i = 31
  · subst h31; decide
  by_cases h27 : i = 27
  · subst h27; decide
  by_cases h25 : i = 25
  · subst h25; decide
  by_cases h24 : i = 24
  · subst h24; decide
  by_cases h26 : i = 26
  · subst h26; decide
  by_cases h21 : i = 21
  · subst h21; decide
  by_cases h19 : i = 19
  · subst h19; decide
  have e31 : ¬ 31 = i := fun e => h31 e.symm
  have e27 : ¬ 27 = i := fun e => h27 e.symm
  have e25 : ¬ 25 = i := fun e => h25 e.symm
  have e24 : ¬ 24 = i := fun e => h24 e.symm
  have e26 : ¬ 26 = i := fun e => h26 e.symm
  have e21 : ¬ 21 = i := fun e => h21 e.symm
  have e19 : ¬ 19 = i := fun e => h19 e.symm
  simp [h31, h27, h25, h24, h26, h21, h19, e31, e27, e25, e24, e26, e21, e19]

theorem land_ModeType_eq_zero_iff (m : Nat) :
    m &&& ModeType = 0 ↔ ∀ i ∈ typeBits, m.testBit i = false := by
  constructor
  · intro h i hi
    have := congrArg (fun x => Nat.testBit x i) h
    simp only [Nat.testBit_and, Nat.zero_testBit, ModeType_testBit, hi, decide_True,
      Bool.and_true] at this
    exact this
  · intro h
    apply Nat.eq_of_testBit_eq
    intro i
    rw [Nat.testBit_and, Nat.zero_testBit, ModeType_testBit]
    by_cases hi : i ∈ typeBits
    · simp [h i hi]
    · simp [hi]

theorem isFile_iff (f : FileInfo) :
    isFile f = true ↔ ∀ i ∈ typeBits, f.mode.testBit i = false := by
  rw [← land_ModeType_eq_zero_iff]
  have hs : (ModeSymlink != 0) = true := by decide
  unfold isFile
  rw [hs, Bool.and_true]
  exact beq_iff_eq

/-! ## Lemmas on `copy` -/

theorem wrapInt64_add (a b : Int) : wrapInt64 (wrapInt64 a + b) = wrapInt64 (a + b) := by
  unfold wrapInt64
  omega

theorem wrapInt64_of_range (a : Int) (h1 : -(2 ^ 63) ≤ a) (h2 : a < 2 ^ 63) :
    wrapInt64 a = a := by
  unfold wrapInt64
  omega

theorem copyStep_skip (fcopy : Str → Str → CopyResult) (st : CopyStats) (v : Entry)
    (h : v.dedup = []) : copyStep fcopy st v = st := by
  simp [copyStep, h]

theorem copyStep_fail (fcopy : Str → Str → CopyResult) (st : CopyStats) (v : Entry)
    (h : v.dedup ≠ []) (hf : copyOk fcopy (v.orig, v.dedup) = false) :
    copyStep fcopy st v =
      { st with errors := (st.errors + 1) % 2 ^ 64
                attempts := st.attempts ++ [(v.orig, v.dedup)] } := by
  unfold copyOk at hf
  unfold copyStep
  cases he : (fcopy v.orig v.dedup).err with
  | none => simp [he] at hf
  | some e => simp [h, he]

theorem copyStep_ok (fcopy : Str → Str → CopyResult) (st : CopyStats) (v : Entry)
    (h : v.dedup ≠ []) (hf : copyOk fcopy (v.orig, v.dedup) = true) :
    copyStep fcopy st v =
      { st with files := (st.files + 1) % 2 ^ 64
                cc := wrapInt64 (st.cc + copyBytes fcopy (v.orig, v.dedup))
                attempts := st.attempts ++ [(v.orig, v.dedup)] } := by
  unfold copyOk at hf
  unfold copyStep
  cases he : (fcopy v.orig v.dedup).err with
  | none => simp [h, he, copyBytes]
  | some e => simp [he] at hf

/-- The loop of `copy` over a list of entries, from any counters. -/
theorem copyFold_spec (fcopy : Str → Str → CopyResult) (es : List Entry) (st : CopyStats) :
    (es.foldl (copyStep fcopy) st).attempts = st.attempts ++ toCopy es ∧
    (es.foldl (copyStep fcopy) st).files % 2 ^ 64
      = (st.files + ((toCopy es).filter (copyOk fcopy)).length) % 2 ^ 64 ∧
    (es.foldl (copyStep fcopy) st).errors % 2 ^ 64
      = (st.errors + ((toCopy es).filter (fun a => !copyOk fcopy a)).length) % 2 ^ 64 ∧
    wrapInt64 (es.foldl (copyStep fcopy) st).cc
      = wrapInt64 (st.cc + (((toCopy es).filter (copyOk fcopy)).map (copyBytes fcopy)).sum) := by
  induction es generalizing st with
  | nil => simp [toCopy]
  | cons v rest ih =>
    rw [List.foldl_cons]
    obtain ⟨i1, i2, i3, i4⟩ := ih (copyStep fcopy st v)
    by_cases hd : v.dedup = []
    · have ht : toCopy (v :: rest) = toCopy rest := by simp [toCopy, hd]
      rw [ht]
      rw [copyStep_skip fcopy st v hd] at i1 i2 i3 i4 ⊢
      exact ⟨i1, i2, i3, i4⟩
    · have ht : toCopy (v :: rest) = (v.orig, v.dedup) :: toCopy rest := by
        simp [toCopy, hd]
      rw [ht]
      cases hok : copyOk fcopy (v.orig, v.dedup) with
      | false =>
        rw [copyStep_fail fcopy st v hd hok] at i1 i2 i3 i4 ⊢
        simp only [List.filter_cons, hok, Bool.false_eq_true, if_false, Bool.not_false,
          if_true, List.length_cons] at i1 i2 i3 i4 ⊢
        refine ⟨by rw [i1]; simp, i2, ?_, i4⟩
        rw [i3]; omega
      | true =>
        rw [copyStep_ok fcopy st v hd hok] at i1 i2 i3 i4 ⊢
        simp only [List.filter_cons, hok, if_true, Bool.not_true, Bool.false_eq_true,
          if_false, List.length_cons, List.map_cons, List.sum_cons] at i1 i2 i3 i4 ⊢
        refine ⟨by rw [i1]; simp, ?_, i3, ?_⟩
        · rw [i2]; omega
        · rw [i4, wrapInt64_add, add_assoc]

theorem copyStep_bounds (fcopy : Str → Str → CopyResult) (st : CopyStats) (v : Entry)
    (h : st.files < 2 ^ 64 ∧ st.errors < 2 ^ 64 ∧ wrapInt64 st.cc = st.cc) :
    (copyStep fcopy st v).files < 2 ^ 64 ∧ (copyStep fcopy st v).errors < 2 ^ 64 ∧
      wrapInt64 (copyStep fcopy st v).cc = (copyStep fcopy st v).cc := by
  by_cases hd : v.dedup = []
  · rw [copyStep_skip fcopy st v hd]; exact h
  · cases hok : copyOk fcopy (v.orig, v.dedup) with
    | false =>
      rw [copyStep_fail fcopy st v hd hok]
      exact ⟨h.1, Nat.mod_lt _ (by norm_num), h.2.2⟩
    | true =>
      rw [copyStep_ok fcopy st v hd hok]
      refine ⟨Nat.mod_lt _ (by norm_num), h.2.1, ?_⟩
      show wrapInt64 (wrapInt64 _) = wrapInt64 _
      unfold wrapInt64
      omega

theorem copyFold_bounds (fcopy : Str → Str → CopyResult) (es : List Entry) (st : CopyStats)
    (h : st.files < 2 ^ 64 ∧ st.errors < 2 ^ 64 ∧ wrapInt64 st.cc = st.cc) :
    (es.foldl (copyStep fcopy) st).files < 2 ^ 64 ∧
    (es.foldl (copyStep fcopy) st).errors < 2 ^ 64 ∧
    wrapInt64 (es.foldl (copyStep fcopy) st).cc = (es.foldl (copyStep fcopy) st).cc := by
  induction es generalizing st with
  | nil => exact h
  | cons v rest ih =>
    rw [List.foldl_cons]
    exact ih _ (copyStep_bounds fcopy st v h)

theorem copy_eq_fold (s : Flist) (order : List Str) (fcopy : Str → Str → CopyResult) :
    Flist.copy s order fcopy
      = (order.filterMap (Flist.lookup s)).foldl (copyStep fcopy)
          { files := 0, errors := 0, cc := 0, attempts := [] } := by
  unfold Flist.copy
  generalize ({ files := 0, errors := 0, cc := 0, attempts := [] } : CopyStats) = st
  induction order generalizing st with
  | nil => rfl
  | cons k rest ih =>
    rw [List.foldl_cons, ih]
    cases hl : Flist.lookup s k with
    | none => simp [List.filterMap_cons, hl]
    | some v => simp [List.filterMap_cons, hl]

theorem filterMap_lookup_keys (s : Flist) (hwf : s.WF) :
    (Flist.keys s).filterMap (Flist.lookup s) = s.map Prod.snd := by
  induction s with
  | nil => rfl
  | cons p t ih =>
    obtain ⟨k, v⟩ := p
    have hk : k ∉ Flist.keys t := by
      have := List.nodup_cons.mp hwf
      exact this.1
    have ht : Flist.WF t := (List.nodup_cons.mp hwf).2
    have hcongr : (Flist.keys t).filterMap (Flist.lookup ((k, v) :: t))
        = (Flist.keys t).filterMap (Flist.lookup t) := by
      apply List.filterMap_congr
      intro x hx
      have : k ≠ x := fun e => hk (e ▸ hx)
      simp [Flist.lookup, this]
    have hself : Flist.lookup ((k, v) :: t) k = some v := by simp [Flist.lookup]
    show List.filterMap _ (k :: Flist.keys t) = v :: t.map Prod.snd
    rw [List.filterMap_cons, hself, hcongr, ih ht]

/-- The copies attempted are those the index asks for, each once. -/
theorem copy_attempts_perm (s : Flist) (order : List Str) (fcopy : Str → Str → CopyResult)
    (hwf : s.WF) (hord : IsIterationOrder s order) :
    (Flist.copy s order fcopy).attempts.Perm (toCopy (s.map Prod.snd)) := by
  rw [copy_eq_fold, (copyFold_spec fcopy _ _).1, List.nil_append,
    ← filterMap_lookup_keys s hwf]
  unfold toCopy
  exact ((hord.filterMap _).filter _).map _

theorem filter_split_length {α : Type} (p : α → Bool) (l : List α) :
    (l.filter p).length + (l.filter (fun a => !p a)).length = l.length := by
  induction l with
  | nil => rfl
  | cons a t ih =>
    cases h : p a <;> simp [List.filter_cons, h] <;> omega

/-- The counters of `copy` when the map has fewer than `2^64` entries. -/
theorem copy_counts (s : Flist) (order : List Str) (fcopy : Str → Str → CopyResult)
    (hlen : order.length < 2 ^ 64) :
    (Flist.copy s order fcopy).files
      = ((Flist.copy s order fcopy).attempts.filter (copyOk fcopy)).length ∧
    (Flist.copy s order fcopy).errors
      = ((Flist.copy s order fcopy).attempts.filter (fun a => !copyOk fcopy a)).length ∧
    (Flist.copy s order fcopy).cc
      = wrapInt64 ((((Flist.copy s order fcopy).attempts.filter (copyOk fcopy)).map
          (copyBytes fcopy)).sum) := by
  rw [copy_eq_fold]
  set es := order.filterMap (Flist.lookup s) with hes
  set st0 : CopyStats := { files := 0, errors := 0, cc := 0, attempts := [] } with hst0
  obtain ⟨a1, a2, a3, a4⟩ := copyFold_spec fcopy es st0
  obtain ⟨b1, b2, b3⟩ := copyFold_bounds fcopy es st0
    ⟨by norm_num [st0], by norm_num [st0], by simp [st0, wrapInt64]⟩
  have hA : (es.foldl (copyStep fcopy) st0).attempts = toCopy es := by
    rw [a1]; simp [st0]
  have hle : (toCopy es).length ≤ order.length := by
    unfold toCopy
    rw [List.length_map]
    exact (List.length_filter_le _ _).trans (List.length_filterMap_le _ _)
  have h1 := List.length_filter_le (copyOk fcopy) (toCopy es)
  have h2 := List.length_filter_le (fun a => !copyOk fcopy a) (toCopy es)
  rw [hA]
  simp only [st0, Nat.zero_add, zero_add] at a2 a3 a4
  refine ⟨?_, ?_, ?_⟩
  · rw [← Nat.mod_eq_of_lt b1, a2]
    exact Nat.mod_eq_of_lt (by omega)
  · rw [← Nat.mod_eq_of_lt b2, a3]
    exact Nat.mod_eq_of_lt (by omega)
  · rw [← b3, a4]

/-! ## Lemmas on the scanner -/

theorem walkfn_of_err (checksum : Str → Option Str) (st : ScanState) (pathname : Str)
    (f : FileInfo) (e : Str) : walkfn checksum st pathname f (some e) = (st, some e) := rfl

theorem walkfn_of_ok (checksum : Str → Option Str) (st : ScanState) (pathname : Str)
    (f : FileInfo) : (walkfn checksum st pathname f none).2 = none := by
  unfold walkfn
  simp only
  split
  · split <;> rfl
  · rfl

theorem walkfn_no_match (checksum : Str → Option Str) (st : ScanState) (pathname : Str)
    (f : FileInfo) (err : Option Str) (h : (isFile f && match_ (Clean pathname)) = false) :
    (walkfn checksum st pathname f err).1 = st := by
  unfold walkfn
  cases err with
  | some e => rfl
  | none => simp [h]

theorem walk_append_of_ok (fn : ScanState → Node → ScanState × Option Str)
    (pre post : List Node) (st : ScanState) (h : ∀ st1, ∀ n ∈ pre, (fn st1 n).2 = none) :
    walk fn st (pre ++ post) = walk fn (pre.foldl (fun a n => (fn a n).1) st) post := by
  induction pre generalizing st with
  | nil => rfl
  | cons n rest ih =>
    have hn := h st n (List.mem_cons_self _ _)
    have hrest : ∀ st1, ∀ m ∈ rest, (fn st1 m).2 = none :=
      fun st1 m hm => h st1 m (List.mem_cons_of_mem _ hm)
    simp only [List.cons_append, List.foldl_cons]
    rw [← ih _ hrest]
    rcases hfn : fn st n with ⟨st1, r⟩
    rw [hfn] at hn
    simp only at hn
    subst hn
    simp [walk, hfn]

theorem walk_stops (fn : ScanState → Node → ScanState × Option Str)
    (n : Node) (post : List Node) (st : ScanState) (e : Str)
    (h : fn st n = (st, some e)) : walk fn st (n :: post) = st := by
  simp [walk, h]

/-- The walk of `processPath` ends at the first node delivered with an
error: it is the walk over the nodes before that node. -/
theorem walk_takeWhile (checksum : Str → Option Str) (nodes : List Node) (st : ScanState) :
    walk (fun st n => walkfn checksum st n.pathname n.info n.err) st nodes
      = walk (fun st n => walkfn checksum st n.pathname n.info n.err) st
          (nodes.takeWhile (fun n => n.err.isNone)) := by
  induction nodes generalizing st with
  | nil => rfl
  | cons n rest ih =>
    cases he : n.err with
    | some e =>
      have h1 : List.takeWhile (fun n => n.err.isNone) (n :: rest) = [] := by
        simp [List.takeWhile, he]
      rw [h1]
      simp [walk, he, walkfn_of_err]
    | none =>
      have h1 : List.takeWhile (fun n => n.err.isNone) (n :: rest)
          = n :: List.takeWhile (fun n => n.err.isNone) rest := by
        simp [List.takeWhile, he]
      rw [h1]
      have h2 := walkfn_of_ok checksum st n.pathname n.info
      rcases hfn : walkfn checksum st n.pathname n.info none with ⟨st1, r⟩
      rw [hfn] at h2
      simp only at h2
      subst h2
      simp only [walk, he, hfn]
      exact ih st1

/-- Without errors the walk calls the callback on every node in turn. -/
theorem walk_of_no_err (checksum : Str → Option Str) (nodes : List Node) (st : ScanState)
    (h : ∀ n ∈ nodes, n.err = none) :
    walk (fun st n => walkfn checksum st n.pathname n.info n.err) st nodes
      = nodes.foldl (fun a n => (walkfn checksum a n.pathname n.info n.err).1) st := by
  have := walk_append_of_ok (fun st n => walkfn checksum st n.pathname n.info n.err)
    nodes [] st (by
      intro st1 n hn
      simp only [h n hn]
      exact walkfn_of_ok checksum st1 n.pathname n.info)
  simpa [walk] using this

theorem walk_invariant (fn : ScanState → Node → ScanState × Option Str)
    (P : ScanState → Prop) (hstep : ∀ st n, P st → P (fn st n).1)
    (nodes : List Node) (st : ScanState) (h : P st) : P (walk fn st nodes) := by
  induction nodes generalizing st with
  | nil => exact h
  | cons n rest ih =>
    have h1 := hstep st n h
    rcases hfn : fn st n with ⟨st1, r⟩
    rw [hfn] at h1
    cases r with
    | none => simpa [walk, hfn] using ih st1 h1
    | some e => simpa [walk, hfn] using h1

theorem lookup_add_cases (s : Flist) (c f k : Str) (v : Entry)
    (h : Flist.lookup (Flist.add s c f) k = some v) :
    Flist.lookup s k = some v ∨ (k = c ∧ v = { orig := f, dedup := [] }) := by
  by_cases hc : c ∈ Flist.keys s
  · rw [add_of_present s c f hc] at h
    exact Or.inl h
  · rw [add_of_absent s c f hc, lookup_append] at h
    cases hl : Flist.lookup s k with
    | some w =>
      rw [hl] at h
      exact Or.inl h
    | none =>
      rw [hl] at h
      right
      by_cases hk : c = k
      · subst hk
        simp [Flist.lookup] at h
        exact ⟨rfl, h.symm⟩
      · simp [Flist.lookup, hk] at h

theorem hasEnding_mono (name : Str) (h : hasEnding codeExts name = true) :
    hasEnding specExts name = true := by
  simp only [hasEnding, codeExts, specExts, List.any_cons, List.any_nil, Bool.or_false,
    Bool.or_eq_true] at h ⊢
  tauto

/-- Every path handed to `checksum`, and every path the scan adds to the
index, is accepted by `match`. -/
theorem scan_only_matching (tree : Str → List Node) (checksum : Str → Option Str)
    (s : Flist) (pathname : Str) :
    (∀ p ∈ (processPath tree checksum s pathname).hashed, match_ p = true) ∧
    (∀ k v, Flist.lookup (processPath tree checksum s pathname).index k = some v →
      Flist.lookup s k = some v ∨ match_ v.orig = true) := by
  unfold processPath
  apply walk_invariant _ (fun st => (∀ p ∈ st.hashed, match_ p = true) ∧
    (∀ k v, Flist.lookup st.index k = some v →
      Flist.lookup s k = some v ∨ match_ v.orig = true))
  · rintro st n ⟨h1, h2⟩
    cases he : n.err with
    | some e => exact ⟨h1, h2⟩
    | none =>
      cases hc : (isFile n.info && match_ (Clean n.pathname)) with
      | false =>
        rw [walkfn_no_match checksum st n.pathname n.info none hc]
        exact ⟨h1, h2⟩
      | true =>
        have hm : match_ (Clean n.pathname) = true := by
          simp only [Bool.and_eq_true] at hc
          exact hc.2
        unfold walkfn
        simp only [hc, if_true]
        cases checksum (Clean n.pathname) with
        | none =>
          refine ⟨?_, h2⟩
          intro p hp
          rcases List.mem_append.mp hp with hp | hp
          · exact h1 p hp
          · simp only [List.mem_singleton] at hp
            rw [hp]; exact hm
        | some csum =>
          constructor
          · intro p hp
            rcases List.mem_append.mp hp with hp | hp
            · exact h1 p hp
            · simp only [List.mem_singleton] at hp
              rw [hp]; exact hm
          · intro k v hv
            rcases lookup_add_cases _ _ _ _ _ hv with h | ⟨_, h⟩
            · exact h2 k v h
            · right
              rw [h]; exact hm
  · exact ⟨by simp, fun k v h => Or.inl h⟩

theorem length_addAll_new (calls : List (Str × Str)) :
    (addAll newFlist calls).length = (calls.map Prod.fst).dedup.length := by
  have hnd : (Flist.keys (addAll newFlist calls)).Nodup :=
    nodup_keys_addAll calls newFlist (by simp [newFlist, Flist.keys])
  have hset : (Flist.keys (addAll newFlist calls)).toFinset = (calls.map Prod.fst).toFinset := by
    ext k
    simp only [List.mem_toFinset]
    rw [keys_addAll]
    simp [newFlist, Flist.keys]
  rw [← keys_length, ← List.toFinset_card_of_nodup hnd, hset, List.card_toFinset]

/-! ## The claims -/

/-- C1: first-writer-wins indexing. After any sequence of `add` calls the keys
are the keys at the start plus the hashes of the calls; every entry present at
the start is unchanged; a new hash maps to the path of the earliest call that
carries it, with an empty destination; a single `add` on a present hash
leaves the index unchanged; and from the empty index the number of entries is
the number of distinct hashes, as in the example of `a/1.jpg`, `b/1.jpg` and
`a/2.gif`. -/
theorem C1_first_writer_wins (s : Flist) (calls : List (Str × Str)) :
    (∀ k, k ∈ Flist.keys (addAll s calls) ↔ k ∈ Flist.keys s ∨ k ∈ calls.map Prod.fst) ∧
    (∀ k v, Flist.lookup s k = some v → Flist.lookup (addAll s calls) k = some v) ∧
    (∀ pre k p post, calls = pre ++ (k, p) :: post → k ∉ pre.map Prod.fst →
      Flist.lookup s k = none →
      Flist.lookup (addAll s calls) k = some { orig := p, dedup := [] }) ∧
    (∀ c f, c ∈ Flist.keys s → Flist.add s c f = s) ∧
    (addAll newFlist calls).length = (calls.map Prod.fst).dedup.length ∧
    (∀ h1 h2 : Str, h1 ≠ h2 →
      addAll newFlist [(h1, "a/1.jpg".toList), (h1, "b/1.jpg".toList), (h2, "a/2.gif".toList)]
        = [(h1, { orig := "a/1.jpg".toList, dedup := [] }),
           (h2, { orig := "a/2.gif".toList, dedup := [] })]) := by
  refine ⟨keys_addAll calls s, fun k v h => lookup_addAll_of_some calls s k v h, ?_,
    fun c f h => add_of_present s c f h, length_addAll_new calls, ?_⟩
  · intro pre k p post hc hpre hk
    rw [hc]
    exact lookup_addAll_first s pre post k p hk hpre
  · intro h1 h2 hne
    have hne2 : ¬ h2 = h1 := fun e => hne e.symm
    simp [addAll, newFlist, Flist.add, Flist.lookup, Flist.store, hne, hne2]

/-- C1 at a concrete index: a present hash keeps its entry, a new hash gets
the first of its two paths. -/
theorem C1_first_writer_wins_witness :
    Flist.lookup (addAll [("h0".toList, ⟨"x.jpg".toList, "d/x.jpg-0.jpg".toList⟩)]
        [("h0".toList, "y.jpg".toList), ("h1".toList, "a/1.jpg".toList),
         ("h1".toList, "b/1.jpg".toList)]) "h1".toList
      = some { orig := "a/1.jpg".toList, dedup := [] } ∧
    Flist.lookup (addAll [("h0".toList, ⟨"x.jpg".toList, "d/x.jpg-0.jpg".toList⟩)]
        [("h0".toList, "y.jpg".toList), ("h1".toList, "a/1.jpg".toList),
         ("h1".toList, "b/1.jpg".toList)]) "h0".toList
      = some ⟨"x.jpg".toList, "d/x.jpg-0.jpg".toList⟩ :=
  ⟨(C1_first_writer_wins [("h0".toList, ⟨"x.jpg".toList, "d/x.jpg-0.jpg".toList⟩)]
      [("h0".toList, "y.jpg".toList), ("h1".toList, "a/1.jpg".toList),
       ("h1".toList, "b/1.jpg".toList)]).2.2.1
      [("h0".toList, "y.jpg".toList)] "h1".toList "a/1.jpg".toList
      [("h1".toList, "b/1.jpg".toList)] (by decide) (by decide) (by decide),
   (C1_first_writer_wins [("h0".toList, ⟨"x.jpg".toList, "d/x.jpg-0.jpg".toList⟩)]
      [("h0".toList, "y.jpg".toList), ("h1".toList, "a/1.jpg".toList),
       ("h1".toList, "b/1.jpg".toList)]).2.1 "h0".toList _ (by decide)⟩

/-- C7: `dedup` changes destinations only. For every index, destination and
iteration order the result has the same keys, every entry keeps its
`orig`, and an entry either keeps its `dedup` or gets a name built by the
renaming; no key is added or removed. -/
theorem C7_dedup_frame (s : Flist) (order : List Str) (dest : Str)
    (hwf : s.WF) (hord : IsIterationOrder s order) :
    Flist.keys (Flist.dedup s order dest) = Flist.keys s ∧
    (∀ k, Flist.lookup s k = none → Flist.lookup (Flist.dedup s order dest) k = none) ∧
    (∀ k v, Flist.lookup s k = some v →
      ∃ v1, Flist.lookup (Flist.dedup s order dest) k = some v1 ∧ v1.orig = v.orig ∧
        (v1.dedup = v.dedup ∨
          ∃ n, n < 2 ^ 64 ∧
            v1.dedup = sprintfDest dest (Base v.orig) n (Ext (Base v.orig)))) := by
  have hnd : order.Nodup := hord.nodup_iff.mpr hwf
  refine ⟨dedup_keys s order dest, ?_, ?_⟩
  · intro k hk
    rw [lookup_eq_none_iff] at hk ⊢
    rw [dedup_keys]
    exact hk
  · intro k v hv
    rcases dedup_entry_cases s order dest hnd k v hv with h | ⟨n, hn, h⟩
    · exact ⟨v, h, rfl, Or.inl rfl⟩
    · exact ⟨_, h, rfl, Or.inr ⟨n, hn, rfl⟩⟩

/-- C7 on an index of two entries with the same base name. -/
theorem C7_dedup_frame_witness :
    Flist.keys (Flist.dedup
      [("h1".toList, ⟨"a/img.jpg".toList, []⟩), ("h2".toList, ⟨"b/img.jpg".toList, []⟩)]
      ["h2".toList, "h1".toList] "d".toList) = ["h1".toList, "h2".toList] :=
  (C7_dedup_frame
    [("h1".toList, ⟨"a/img.jpg".toList, []⟩), ("h2".toList, ⟨"b/img.jpg".toList, []⟩)]
    ["h2".toList, "h1".toList] "d".toList (by unfold Flist.WF; decide)
    (List.Perm.swap _ _ _)).1

/-- C8: `isFile` excludes every node that is not a regular file. It returns
true exactly when none of the file-type bits of `os.ModeType` is set in the
mode; it returns false when the symlink bit is set and when the directory bit
is set; and its second conjunct `os.ModeSymlink != 0` is constantly true. -/
theorem C8_isFile_regular_only (f : FileInfo) :
    (isFile f = true ↔ ∀ i ∈ typeBits, f.mode.testBit i = false) ∧
    (isFile f = true ↔ f.mode &&& ModeType = 0) ∧
    (f.mode.testBit 27 = true → isFile f = false) ∧
    (f.mode.testBit 31 = true → isFile f = false) ∧
    (ModeSymlink != 0) = true := by
  refine ⟨isFile_iff f, ?_, ?_, ?_, by decide⟩
  · rw [isFile_iff, land_ModeType_eq_zero_iff]
  · intro h
    cases hf : isFile f with
    | false => rfl
    | true =>
      have := (isFile_iff f).mp hf 27 (by decide)
      rw [h] at this
      cases this
  · intro h
    cases hf : isFile f with
    | false => rfl
    | true =>
      have := (isFile_iff f).mp hf 31 (by decide)
      rw [h] at this
      cases this

/-- C8 on the mode of a symlink with permission bits `0777`. -/
theorem C8_isFile_regular_only_witness : isFile ⟨2 ^ 27 + 511⟩ = false :=
  (C8_isFile_regular_only ⟨2 ^ 27 + 511⟩).2.2.1 (by decide)

/-- C9: flag validation. The program goes on to scan exactly when `-path` is
not empty and `-dest` is not empty exactly when `-copy` is set; in every
other case it exits with status 1, before any scan, dedup or copy. -/
theorem C9_flag_validation (w : World) (path dest : Str)
    (copy verbose justdups quiet : Bool) :
    ((∃ report, main w path dest copy verbose justdups quiet
        = Outcome.done (processPath w.tree w.checksum newFlist path)
            (Flist.dedup (processPath w.tree w.checksum newFlist path).index
              (w.dedupOrder (processPath w.tree w.checksum newFlist path).index) dest)
            report) ↔
      (path ≠ [] ∧ (dest ≠ [] ↔ copy = true))) ∧
    (¬ (path ≠ [] ∧ (dest ≠ [] ↔ copy = true)) →
      main w path dest copy verbose justdups quiet = Outcome.exit 1) := by
  unfold main
  by_cases hp : path = []
  · simp [hp]
  · by_cases hd : dest = []
    · cases copy
      · simp [hp, hd]
      · simp [hp, hd]
    · cases copy
      · simp [hp, hd]
      · simp [hp, hd]

/-- C9 on a run with `-copy` and no `-dest`: the program exits with status 1. -/
theorem C9_flag_validation_witness :
    main ⟨fun _ => [], fun _ => none, fun _ _ => ⟨0, none⟩, fun _ => [], fun _ => []⟩
      "photos".toList [] true false false false = Outcome.exit 1 :=
  (C9_flag_validation _ "photos".toList [] true false false false).2 (by decide)

/-- C2: collision renaming. With all destinations empty at the start, after
`dedup` every base name that occurs has exactly one entry with an empty
destination; the first entry iterated with a base name keeps its empty
destination, and every later entry with that base name gets the destination
`dest/base-n ext` for a counter value `n`. For an index of two entries with the
base name `img.jpg`, the first one iterated keeps an empty destination and the
other gets `dest/img.jpg-0.jpg`. -/
theorem C2_collision_renaming (dest : Str) (s : Flist) (order : List Str)
    (hwf : s.WF) (hord : IsIterationOrder s order)
    (hempty : ∀ k v, Flist.lookup s k = some v → v.dedup = []) :
    (∀ b, (∃ k v, Flist.lookup s k = some v ∧ Base v.orig = b) →
      ∃! k, ∃ v, Flist.lookup (Flist.dedup s order dest) k = some v ∧
        Base v.orig = b ∧ v.dedup = []) ∧
    (∀ pre k post v, order = pre ++ k :: post → Flist.lookup s k = some v →
      ((∀ k1 ∈ pre, ∀ v1, Flist.lookup s k1 = some v1 → Base v1.orig ≠ Base v.orig) →
        Flist.lookup (Flist.dedup s order dest) k = some { orig := v.orig, dedup := [] }) ∧
      ((∃ k1 ∈ pre, ∃ v1, Flist.lookup s k1 = some v1 ∧ Base v1.orig = Base v.orig) →
        ∃ n, n < 2 ^ 64 ∧ Flist.lookup (Flist.dedup s order dest) k
          = some { orig := v.orig
                   dedup := sprintfDest dest (Base v.orig) n (Ext (Base v.orig)) })) ∧
    (∀ (h1 h2 o1 o2 : Str) (ord : List Str), h1 ≠ h2 →
      Base o1 = "img.jpg".toList → Base o2 = "img.jpg".toList →
      IsIterationOrder [(h1, ⟨o1, []⟩), (h2, ⟨o2, []⟩)] ord →
      (ord = [h1, h2] ∧ Flist.dedup [(h1, ⟨o1, []⟩), (h2, ⟨o2, []⟩)] ord dest
          = [(h1, ⟨o1, []⟩), (h2, ⟨o2, dest ++ "/img.jpg-0.jpg".toList⟩)]) ∨
      (ord = [h2, h1] ∧ Flist.dedup [(h1, ⟨o1, []⟩), (h2, ⟨o2, []⟩)] ord dest
          = [(h1, ⟨o1, dest ++ "/img.jpg-0.jpg".toList⟩), (h2, ⟨o2, []⟩)])) := by
  have hnd : order.Nodup := hord.nodup_iff.mpr hwf
  refine ⟨fun b hb => dedup_unique_kept s order dest hwf hord hempty b hb, ?_, ?_⟩
  · intro pre k post v hsplit hv
    subst hsplit
    constructor
    · intro hfirst
      rw [dedup_first_kept s dest pre post k v hnd hv hfirst]
      have := hempty k v hv
      cases v
      simp only at this
      subst this
      rfl
    · intro hseen
      exact dedup_later_renamed s dest pre post k v hnd hv hseen
  · intro h1 h2 o1 o2 ord hne hb1 hb2 hperm
    have h2e := dedup_two_entries dest h1 h2 o1 o2 hne hb1 hb2
    rcases perm_pair_cases h1 h2 ord hperm with e | e
    · exact Or.inl ⟨e, e ▸ h2e.1⟩
    · exact Or.inr ⟨e, e ▸ h2e.2⟩

/-- C2 on two entries with the base name `img.jpg`, the second iterated
first: exactly one entry keeps an empty destination. -/
theorem C2_collision_renaming_witness :
    ∃! k, ∃ v, Flist.lookup (Flist.dedup
        [("h1".toList, ⟨"a/img.jpg".toList, []⟩), ("h2".toList, ⟨"b/img.jpg".toList, []⟩)]
        ["h2".toList, "h1".toList] "d".toList) k = some v ∧
      Base v.orig = "img.jpg".toList ∧ v.dedup = [] :=
  (C2_collision_renaming "d".toList
    [("h1".toList, ⟨"a/img.jpg".toList, []⟩), ("h2".toList, ⟨"b/img.jpg".toList, []⟩)]
    ["h2".toList, "h1".toList] (by unfold Flist.WF; decide) (List.Perm.swap _ _ _)
    (all_empty_of_forall _ (by decide))).1 "img.jpg".toList
    ⟨"h1".toList, ⟨"a/img.jpg".toList, []⟩, by decide, by decide⟩

/-- C10: no two copies target the same destination. With all destinations
empty at the start and fewer than `2^64` entries, the destinations that are
not empty after `dedup` are pairwise distinct; the entries with a destination
are the renamed keys, which follow the iteration order, and the renamed key at
position `i` gets the counter `i`; names built from different counters are
never equal, whatever the base names are. -/
theorem C10_destinations_distinct (dest : Str) (s : Flist) (order : List Str)
    (hwf : s.WF) (hord : IsIterationOrder s order)
    (hempty : ∀ k v, Flist.lookup s k = some v → v.dedup = [])
    (hsize : s.length < 2 ^ 64) :
    (∀ k1 k2 v1 v2, k1 ≠ k2 →
      Flist.lookup (Flist.dedup s order dest) k1 = some v1 →
      Flist.lookup (Flist.dedup s order dest) k2 = some v2 →
      v1.dedup ≠ [] → v1.dedup ≠ v2.dedup) ∧
    (∀ k v, Flist.lookup (Flist.dedup s order dest) k = some v →
      (v.dedup ≠ [] ↔ k ∈ renamedKeys s [] order)) ∧
    (renamedKeys s [] order).Sublist order ∧
    (∀ i (hi : i < (renamedKeys s [] order).length),
      ∃ v, Flist.lookup s ((renamedKeys s [] order).get ⟨i, hi⟩) = some v ∧
        Flist.lookup (Flist.dedup s order dest) ((renamedKeys s [] order).get ⟨i, hi⟩)
          = some { orig := v.orig
                   dedup := sprintfDest dest (Base v.orig) i (Ext (Base v.orig)) }) ∧
    (∀ b1 b2 n1 n2, n1 ≠ n2 →
      sprintfDest dest b1 n1 (Ext b1) ≠ sprintfDest dest b2 n2 (Ext b2)) := by
  have hnd : order.Nodup := hord.nodup_iff.mpr hwf
  have hlen : order.length < 2 ^ 64 := by
    rw [hord.length_eq, keys_length]; exact hsize
  refine ⟨?_, ?_, renamedKeys_sublist s order [], ?_, ?_⟩
  · intro k1 k2 v1 v2 hne h1 h2 hd
    exact dedup_dests_distinct s order dest hnd hlen hempty k1 k2 v1 v2 hne h1 h2 hd
  · intro k v hv
    exact dedup_nonempty_iff s order dest hnd hempty k v hv
  · intro i hi
    exact dedup_counter_at s order dest hnd hlen i hi
  · intro b1 b2 n1 n2 hne h
    exact hne (sprintfDest_counter_injective dest b1 b2 n1 n2 h)

/-- C10 on three entries with the base name `img.jpg`: the two renamed
entries get different destinations. -/
theorem C10_destinations_distinct_witness :
    ("d/img.jpg-0.jpg".toList : Str) ≠ "d/img.jpg-1.jpg".toList :=
  (C10_destinations_distinct "d".toList
    [("h1".toList, ⟨"a/img.jpg".toList, []⟩), ("h2".toList, ⟨"b/img.jpg".toList, []⟩),
     ("h3".toList, ⟨"c/img.jpg".toList, []⟩)]
    ["h1".toList, "h2".toList, "h3".toList] (by unfold Flist.WF; decide) (List.Perm.refl _)
    (all_empty_of_forall _ (by decide))
    (by decide)).1 "h2".toList "h3".toList
    ⟨"b/img.jpg".toList, "d/img.jpg-0.jpg".toList⟩
    ⟨"c/img.jpg".toList, "d/img.jpg-1.jpg".toList⟩
    (by decide) (by decide) (by decide) (by decide)

/-- C3, as the code has it: `match` accepts every path whose base name ends
in `.jpg`, `.mpeg`, `.mp4` or `.gif`, with the letters in any mix of upper and
lower case. -/
theorem C3_match_accepts_media (f : Str) (h : hasEnding codeExts (Base f) = true) :
    match_ f = true :=
  (match_iff f).mpr h

/-- C3 on the names of the specification that the patterns cover. -/
theorem C3_match_accepts_media_witness :
    match_ "photo.JPG".toList = true ∧ match_ "clip.Mp4".toList = true ∧
    match_ "x.gif".toList = true ∧ match_ "dir/y.mpeg".toList = true :=
  ⟨C3_match_accepts_media "photo.JPG".toList (by decide),
   C3_match_accepts_media "clip.Mp4".toList (by decide),
   C3_match_accepts_media "x.gif".toList (by decide),
   C3_match_accepts_media "dir/y.mpeg".toList (by decide)⟩

/-- C3 as stated fails: the base name of `pic.jpeg` ends in `.jpeg`, one of
the five endings of the specification, and `match` returns false on it, no
pattern of `match` standing for `.jpeg`. -/
theorem C3_counterexample :
    hasEnding specExts (Base "pic.jpeg".toList) = true ∧ match_ "pic.jpeg".toList = false := by
  decide

/-- C4: extension filtering rejects everything else. If `match` returns true
the base name of the path ends, case-insensitively, in one of `.jpg`,
`.jpeg`, `.mpeg`, `.mp4`, `.gif`; the callback of the scan leaves the state
alone on a node whose cleaned path has no such ending; every path the scan
hashes and every path it adds to the index has such an ending; `readme.txt`
and a file `notes` under a directory `x.jpg` are not matched. -/
theorem C4_match_rejects_others (tree : Str → List Node) (checksum : Str → Option Str)
    (s : Flist) (pathname : Str) :
    (∀ f, match_ f = true → hasEnding specExts (Base f) = true) ∧
    (∀ st p info err, hasEnding specExts (Base (Clean p)) = false →
      (walkfn checksum st p info err).1 = st) ∧
    (∀ p ∈ (processPath tree checksum s pathname).hashed,
      hasEnding specExts (Base p) = true) ∧
    (∀ k v, Flist.lookup (processPath tree checksum s pathname).index k = some v →
      Flist.lookup s k = some v ∨ hasEnding specExts (Base v.orig) = true) ∧
    match_ "readme.txt".toList = false ∧ match_ "x.jpg/notes".toList = false := by
  have hm : ∀ f, match_ f = true → hasEnding specExts (Base f) = true :=
    fun f h => hasEnding_mono _ ((match_iff f).mp h)
  obtain ⟨h1, h2⟩ := scan_only_matching tree checksum s pathname
  refine ⟨hm, ?_, fun p hp => hm p (h1 p hp), ?_, by decide, by decide⟩
  · intro st p info err hno
    apply walkfn_no_match
    cases hmt : match_ (Clean p) with
    | false => simp
    | true =>
      rw [hm _ hmt] at hno
      cases hno
  · intro k v hv
    rcases h2 k v hv with h | h
    · exact Or.inl h
    · exact Or.inr (hm _ h)

/-- C4 on the node `r/readme.txt`: the callback of the scan leaves the
state alone, hashing and adding nothing. -/
theorem C4_match_rejects_others_witness :
    (walkfn (fun _ => some "h".toList) { index := [], hashed := [] } "r/readme.txt".toList
      ⟨420⟩ none).1 = { index := [], hashed := [] } :=
  (C4_match_rejects_others (fun _ => []) (fun _ => some "h".toList) newFlist "r".toList).2.1
    { index := [], hashed := [] } "r/readme.txt".toList ⟨420⟩ none (by decide)

/-- C6, as the code has it: traversal errors end the walk. On a node
delivered with a traversal error the callback returns that error and leaves
the state alone; the walk then ends, so the result of `processPath` is the one
built from the nodes delivered before the first erroring node, and no later
node is hashed or offered to the index; a traversal without erroring nodes is
processed node by node to its end. -/
theorem C6_traversal_error_ends_walk (tree : Str → List Node)
    (checksum : Str → Option Str) (s : Flist) (pathname : Str) :
    (∀ st p info e, walkfn checksum st p info (some e) = (st, some e)) ∧
    (∀ st p info, (walkfn checksum st p info none).2 = none) ∧
    processPath tree checksum s pathname
      = processPath (fun r => (tree r).takeWhile (fun n => n.err.isNone)) checksum s
          pathname ∧
    (∀ pre n post, tree (Clean pathname) = pre ++ n :: post → (∀ m ∈ pre, m.err = none) →
      n.err ≠ none →
      processPath tree checksum s pathname = processPath (fun _ => pre) checksum s pathname) ∧
    ((∀ n ∈ tree (Clean pathname), n.err = none) →
      processPath tree checksum s pathname
        = (tree (Clean pathname)).foldl
            (fun a n => (walkfn checksum a n.pathname n.info n.err).1)
            { index := s, hashed := [] }) := by
  refine ⟨fun st p info e => rfl, fun st p info => walkfn_of_ok checksum st p info, ?_, ?_, ?_⟩
  · unfold processPath
    exact walk_takeWhile checksum _ _
  · intro pre n post hsplit hpre hn
    unfold processPath
    rw [walk_takeWhile checksum (tree (Clean pathname)), walk_takeWhile checksum pre, hsplit]
    congr 1
    have h1 : ∀ m ∈ pre, (fun n : Node => n.err.isNone) m = true := by
      intro m hm
      simp [hpre m hm]
    have h2 : (fun n : Node => n.err.isNone) n = false := by
      cases he : n.err with
      | none => exact absurd he hn
      | some e => simp [he]
    have h3 : List.takeWhile (fun n : Node => n.err.isNone) (n :: post) = [] := by
      rw [List.takeWhile_cons]
      simp only at h2
      simp [h2]
    rw [List.takeWhile_append_of_pos h1, h3, List.append_nil,
      List.takeWhile_eq_self_iff.mpr h1]
  · intro h
    unfold processPath
    exact walk_of_no_err checksum _ _ h

/-- C6 on a tree whose first node has a traversal error: the scan equals the
scan of no node at all. -/
theorem C6_traversal_error_ends_walk_witness :
    processPath
      (fun _ => [⟨"r/a".toList, ⟨0⟩, some "denied".toList⟩, ⟨"r/b.jpg".toList, ⟨420⟩, none⟩])
      (fun _ => some "h".toList) newFlist "r".toList
      = processPath (fun _ => []) (fun _ => some "h".toList) newFlist "r".toList :=
  (C6_traversal_error_ends_walk
    (fun _ => [⟨"r/a".toList, ⟨0⟩, some "denied".toList⟩, ⟨"r/b.jpg".toList, ⟨420⟩, none⟩])
    (fun _ => some "h".toList) newFlist "r".toList).2.2.2.1
    [] ⟨"r/a".toList, ⟨0⟩, some "denied".toList⟩ [⟨"r/b.jpg".toList, ⟨420⟩, none⟩]
    rfl (by simp) (by decide)

/-- C6 as stated fails: on a node with a traversal error the callback does
not answer `nil`, and the index built from a traversal with an erroring node
before `r/b.jpg` is empty, while the one built from the same traversal
without that node holds `r/b.jpg`. -/
theorem C6_counterexample :
    (walkfn (fun _ => some "h".toList) { index := [], hashed := [] } "r/a".toList ⟨0⟩
        (some "denied".toList)).2 ≠ none ∧
    (processPath
        (fun _ => [⟨"r/a".toList, ⟨0⟩, some "denied".toList⟩,
                   ⟨"r/b.jpg".toList, ⟨420⟩, none⟩])
        (fun _ => some "h".toList) newFlist "r".toList).index = [] ∧
    (processPath (fun _ => [⟨"r/b.jpg".toList, ⟨420⟩, none⟩])
        (fun _ => some "h".toList) newFlist "r".toList).index
      = [("h".toList, { orig := "r/b.jpg".toList, dedup := [] })] := by
  decide

/-- C5: copy totals and error isolation. For every index with fewer than
`2^64` entries, every iteration order and every outcome of the single copies,
`copy` attempts exactly the entries whose destination is not empty, each
once, whatever the earlier attempts gave; the file count is the number of
attempts that succeeded and the error count the number that failed, so they
add up to the number of entries with a destination; the byte total is the sum
of the bytes of the attempts that succeeded, reduced to a 64-bit signed
integer, and is that sum when the sum fits. -/
theorem C5_copy_totals (s : Flist) (order : List Str) (fcopy : Str → Str → CopyResult)
    (hwf : s.WF) (hord : IsIterationOrder s order) (hsize : s.length < 2 ^ 64) :
    (Flist.copy s order fcopy).attempts.Perm (toCopy (s.map Prod.snd)) ∧
    (∀ a ∈ (Flist.copy s order fcopy).attempts, a.2 ≠ []) ∧
    (Flist.copy s order fcopy).files
      = ((Flist.copy s order fcopy).attempts.filter (copyOk fcopy)).length ∧
    (Flist.copy s order fcopy).errors
      = ((Flist.copy s order fcopy).attempts.filter (fun a => !copyOk fcopy a)).length ∧
    (Flist.copy s order fcopy).files + (Flist.copy s order fcopy).errors
      = (toCopy (s.map Prod.snd)).length ∧
    (Flist.copy s order fcopy).cc
      = wrapInt64 ((((Flist.copy s order fcopy).attempts.filter (copyOk fcopy)).map
          (copyBytes fcopy)).sum) ∧
    (-(2 ^ 63) ≤ (((Flist.copy s order fcopy).attempts.filter (copyOk fcopy)).map
          (copyBytes fcopy)).sum →
      (((Flist.copy s order fcopy).attempts.filter (copyOk fcopy)).map
          (copyBytes fcopy)).sum < 2 ^ 63 →
      (Flist.copy s order fcopy).cc
        = (((Flist.copy s order fcopy).attempts.filter (copyOk fcopy)).map
            (copyBytes fcopy)).sum) := by
  have hlen : order.length < 2 ^ 64 := by
    rw [hord.length_eq, keys_length]; exact hsize
  have hperm := copy_attempts_perm s order fcopy hwf hord
  obtain ⟨c1, c2, c3⟩ := copy_counts s order fcopy hlen
  refine ⟨hperm, ?_, c1, c2, ?_, c3, ?_⟩
  · intro a ha
    have hmem := hperm.subset ha
    unfold toCopy at hmem
    simp only [List.mem_map, List.mem_filter, decide_eq_true_eq] at hmem
    obtain ⟨v, ⟨_, hv⟩, rfl⟩ := hmem
    exact hv
  · rw [c1, c2, filter_split_length, hperm.length_eq]
  · intro h1 h2
    rw [c3]
    exact wrapInt64_of_range _ h1 h2

/-- C5 on three entries of 10, 20 and 30 bytes: without errors 3 files and
60 bytes; when the second copy fails, 2 files and 1 error. -/
theorem C5_copy_totals_witness :
    (Flist.copy
        [("h1".toList, ⟨"a".toList, "d/a".toList⟩), ("h2".toList, ⟨"b".toList, "d/b".toList⟩),
         ("h3".toList, ⟨"c".toList, "d/c".toList⟩)]
        ["h1".toList, "h2".toList, "h3".toList]
        (fun src _ => if src = "a".toList then ⟨10, none⟩
          else if src = "b".toList then ⟨20, none⟩ else ⟨30, none⟩)).files = 3 ∧
    (Flist.copy
        [("h1".toList, ⟨"a".toList, "d/a".toList⟩), ("h2".toList, ⟨"b".toList, "d/b".toList⟩),
         ("h3".toList, ⟨"c".toList, "d/c".toList⟩)]
        ["h1".toList, "h2".toList, "h3".toList]
        (fun src _ => if src = "a".toList then ⟨10, none⟩
          else if src = "b".toList then ⟨20, none⟩ else ⟨30, none⟩)).cc = 60 ∧
    (Flist.copy
        [("h1".toList, ⟨"a".toList, "d/a".toList⟩), ("h2".toList, ⟨"b".toList, "d/b".toList⟩),
         ("h3".toList, ⟨"c".toList, "d/c".toList⟩)]
        ["h1".toList, "h2".toList, "h3".toList]
        (fun src _ => if src = "a".toList then ⟨10, none⟩
          else if src = "b".toList then ⟨0, some "no such directory".toList⟩
          else ⟨30, none⟩)).files = 2 ∧
    (Flist.copy
        [("h1".toList, ⟨"a".toList, "d/a".toList⟩), ("h2".toList, ⟨"b".toList, "d/b".toList⟩),
         ("h3".toList, ⟨"c".toList, "d/c".toList⟩)]
        ["h1".toList, "h2".toList, "h3".toList]
        (fun src _ => if src = "a".toList then ⟨10, none⟩
          else if src = "b".toList then ⟨0, some "no such directory".toList⟩
          else ⟨30, none⟩)).errors = 1 :=
  ⟨((C5_copy_totals _ _ _ (by unfold Flist.WF; decide) (List.Perm.refl _)
      (by decide)).2.2.1).trans (by decide),
   ((C5_copy_totals _ _ _ (by unfold Flist.WF; decide) (List.Perm.refl _)
      (by decide)).2.2.2.2.2.1).trans (by decide),
   ((C5_copy_totals _ _ _ (by unfold Flist.WF; decide) (List.Perm.refl _)
      (by decide)).2.2.1).trans (by decide),
   ((C5_copy_totals _ _ _ (by unfold Flist.WF; decide) (List.Perm.refl _)
      (by decide)).2.2.2.1).trans (by decide)⟩

end Photofinder
